import Mathlib

/-!
go-hdf5: the Jenkins lookup3 metadata checksum and the root-attribute write path

Shallow embedding of `internal/utils/jenkins.go` (functions `JenkinsLookup3` and
`JenkinsChecksum`).  A Go `[]byte` is a `List Byte`, a `uint32` is a natural number
kept below `2 ^ 32` by explicit wrap-around, and a slice access `k[i]` is a checked
lookup that fails with `GoPanic.indexOutOfRange` when `i` is not below `len(k)`.

The writer of root attributes (options, validation, storage planner, block encoder) is
exercised by the tests of the repository but its code is not among the sources; each
definition that stands for it is marked `Modelled from the spec:`.

Layout: definitions first, then supporting lemmas, then one theorem per claim.
-/

namespace HDF5

/-! ## Machine words -/

/-- One Go `byte`. -/
abbrev Byte := Fin 256

/-- Ways in which a run of the embedded code can fail to produce a value. -/
inductive GoPanic where
  | indexOutOfRange
  | outOfFuel
  deriving DecidableEq

/-- Slice access `uint32(k[i])`: the byte widened to 32 bits, or a panic when `i` is
out of range. -/
def index (k : List Byte) (i : Nat) : Except GoPanic Nat :=
  match k[i]? with
  | some v => .ok v.val
  | none => .error .indexOutOfRange

/-- Addition `x + y` on `uint32` (wraps modulo `2 ^ 32`). -/
def add32 (x y : Nat) : Nat := (x + y) % 2 ^ 32

/-- Subtraction `x - y` on `uint32` (wraps modulo `2 ^ 32`). -/
def sub32 (x y : Nat) : Nat := (x + (2 ^ 32 - y % 2 ^ 32)) % 2 ^ 32

/-- Shift `x << s` on `uint32` (bits shifted past bit 31 are lost). -/
def shl32 (x s : Nat) : Nat := (x <<< s) % 2 ^ 32

/-- Shift `x >> s` on `uint32`. -/
def shr32 (x s : Nat) : Nat := x >>> s

/-! ## `JenkinsLookup3` (jenkins.go, lines 12-111) -/

/-- The eighteen statements under the `// mix` comment (lines 30-48), on the state
`(a, b, c)`. -/
def mixRound (a b c : Nat) : Nat × Nat × Nat :=
  let a := sub32 a c
  let a := a ^^^ (shl32 c 4 ||| shr32 c 28)
  let c := add32 c b
  let b := sub32 b a
  let b := b ^^^ (shl32 a 6 ||| shr32 a 26)
  let a := add32 a c
  let c := sub32 c b
  let c := c ^^^ (shl32 b 8 ||| shr32 b 24)
  let b := add32 b a
  let a := sub32 a c
  let a := a ^^^ (shl32 c 16 ||| shr32 c 16)
  let c := add32 c b
  let b := sub32 b a
  let b := b ^^^ (shl32 a 19 ||| shr32 a 13)
  let a := add32 a c
  let c := sub32 c b
  let c := c ^^^ (shl32 b 4 ||| shr32 b 28)
  let b := add32 b a
  (a, b, c)

/-- The loop `for len(k) > 12 { ... k = k[12:] }` (lines 25-51).  The first argument
bounds the number of times the loop condition is evaluated; the result is the
remaining slice together with `a`, `b`, `c` at loop exit. -/
def blockLoop : Nat → List Byte → Nat → Nat → Nat →
    Except GoPanic (List Byte × Nat × Nat × Nat)
  | 0, _, _, _, _ => .error .outOfFuel
  | fuel + 1, k, a, b, c =>
    if k.length > 12 then do
      let k0 ← index k 0
      let k1 ← index k 1
      let k2 ← index k 2
      let k3 ← index k 3
      let a := add32 a (k0 ||| shl32 k1 8 ||| shl32 k2 16 ||| shl32 k3 24)
      let k4 ← index k 4
      let k5 ← index k 5
      let k6 ← index k 6
      let k7 ← index k 7
      let b := add32 b (k4 ||| shl32 k5 8 ||| shl32 k6 16 ||| shl32 k7 24)
      let k8 ← index k 8
      let k9 ← index k 9
      let k10 ← index k 10
      let k11 ← index k 11
      let c := add32 c (k8 ||| shl32 k9 8 ||| shl32 k10 16 ||| shl32 k11 24)
      let (a, b, c) := mixRound a b c
      blockLoop fuel (k.drop 12) a b c
    else
      .ok (k, a, b, c)

/-- One arm `case label: x += uint32(k[i]) << s; fallthrough` of the tail switch on
`n = len(k)`.  The arm runs when the switch was entered at an arm at or above it,
that is when `label ≤ n ≤ 12`; otherwise `x` is left alone. -/
def fallInto (n label : Nat) (k : List Byte) (i s : Nat) (x : Nat) : Except GoPanic Nat :=
  if label ≤ n ∧ n ≤ 12 then do
    let v ← index k i
    pure (add32 x (shl32 v s))
  else
    pure x

/-- The fourteen statements under the `// final mix` comment (lines 95-108); the value
is the final `c`. -/
def finalMix (a b c : Nat) : Nat :=
  let c := c ^^^ b
  let c := sub32 c (shl32 b 14 ||| shr32 b 18)
  let a := a ^^^ c
  let a := sub32 a (shl32 c 11 ||| shr32 c 21)
  let b := b ^^^ a
  let b := sub32 b (shl32 a 25 ||| shr32 a 7)
  let c := c ^^^ b
  let c := sub32 c (shl32 b 16 ||| shr32 b 16)
  let a := a ^^^ c
  let a := sub32 a (shl32 c 4 ||| shr32 c 28)
  let b := b ^^^ a
  let b := sub32 b (shl32 a 14 ||| shr32 a 18)
  let c := c ^^^ b
  let c := sub32 c (shl32 b 24 ||| shr32 b 8)
  c

/-- The `switch len(k)` with its fall-through arms (lines 54-92) followed by the final
mix and `return c` (lines 94-110). -/
def lastBlock (k : List Byte) (a b c : Nat) : Except GoPanic Nat :=
  let n := k.length
  if n = 0 then
    .ok c
  else do
    let c ← fallInto n 12 k 11 24 c
    let c ← fallInto n 11 k 10 16 c
    let c ← fallInto n 10 k 9 8 c
    let c ← fallInto n 9 k 8 0 c
    let b ← fallInto n 8 k 7 24 b
    let b ← fallInto n 7 k 6 16 b
    let b ← fallInto n 6 k 5 8 b
    let b ← fallInto n 5 k 4 0 b
    let a ← fallInto n 4 k 3 24 a
    let a ← fallInto n 3 k 2 16 a
    let a ← fallInto n 2 k 1 8 a
    let a ← fallInto n 1 k 0 0 a
    .ok (finalMix a b c)

/-- Go `JenkinsLookup3(data []byte, initval uint32) uint32`. -/
def JenkinsLookup3 (data : List Byte) (initval : Nat) : Except GoPanic Nat :=
  let length := data.length
  if length = 0 then
    .ok 0
  else do
    let a := add32 (add32 0xdeadbeef (length % 2 ^ 32)) initval
    let b := a
    let c := a
    let k := data
    let (k, a, b, c) ← blockLoop length k a b c
    lastBlock k a b c

/-- Go `JenkinsChecksum(data []byte) uint32` (lines 114-116). -/
def JenkinsChecksum (data : List Byte) : Except GoPanic Nat :=
  JenkinsLookup3 data 0

/-- Go conversion `[]byte(s)` for a string of ASCII characters. -/
def ascii (s : String) : List Byte :=
  s.toList.map (fun ch => Fin.ofNat ch.toNat)

/-! ## The lookup3 `hashlittle` reference -/

namespace Reference

/-- Rotation of a 32-bit word to the left by `r` bits. -/
def rot (x r : Nat) : Nat := ((x <<< r) % 2 ^ 32) ||| (x >>> (32 - r))

/-- Little-endian 32-bit word made of four byte values. -/
def leWord (b0 b1 b2 b3 : Nat) : Nat := b0 + 2 ^ 8 * b1 + 2 ^ 16 * b2 + 2 ^ 24 * b3

/-- Byte `i` of the remaining key, zero when the key is shorter (zero padding). -/
def padByte (k : List Byte) (i : Nat) : Nat := (k.getD i 0).val

/-- Little-endian word at byte offset `i` of the zero-padded key. -/
def wordAt (k : List Byte) (i : Nat) : Nat :=
  leWord (padByte k i) (padByte k (i + 1)) (padByte k (i + 2)) (padByte k (i + 3))

/-- The mix schedule of lookup3: rotations 4, 6, 8, 16, 19, 4. -/
def mix (a b c : Nat) : Nat × Nat × Nat :=
  let a := sub32 a c; let a := a ^^^ rot c 4; let c := add32 c b
  let b := sub32 b a; let b := b ^^^ rot a 6; let a := add32 a c
  let c := sub32 c b; let c := c ^^^ rot b 8; let b := add32 b a
  let a := sub32 a c; let a := a ^^^ rot c 16; let c := add32 c b
  let b := sub32 b a; let b := b ^^^ rot a 19; let a := add32 a c
  let c := sub32 c b; let c := c ^^^ rot b 4; let b := add32 b a
  (a, b, c)

/-- The final mix of lookup3: rotations 14, 11, 25, 16, 4, 14, 24. -/
def final (a b c : Nat) : Nat × Nat × Nat :=
  let c := c ^^^ b; let c := sub32 c (rot b 14)
  let a := a ^^^ c; let a := sub32 a (rot c 11)
  let b := b ^^^ a; let b := sub32 b (rot a 25)
  let c := c ^^^ b; let c := sub32 c (rot b 16)
  let a := a ^^^ c; let a := sub32 a (rot c 4)
  let b := b ^^^ a; let b := sub32 b (rot a 14)
  let c := c ^^^ b; let c := sub32 c (rot b 24)
  (a, b, c)

/-- Add the three little-endian words of the next twelve (zero-padded) bytes to
`a`, `b`, `c`. -/
def absorb (k : List Byte) (a b c : Nat) : Nat × Nat × Nat :=
  (add32 a (wordAt k 0), add32 b (wordAt k 4), add32 c (wordAt k 8))

/-- While more than twelve bytes remain: absorb twelve bytes and mix.  Then absorb the
remaining one to twelve bytes zero-padded to twelve, apply the final mix and return `c`.
When no byte remains (a zero-length key) `c` is returned as it is, the `case 0` of the
reference. -/
def blocks : List Byte → Nat → Nat → Nat → Nat
  | [], _, _, c => c
  | k@(_ :: _ :: _ :: _ :: _ :: _ :: _ :: _ :: _ :: _ :: _ :: _ :: b12 :: rest), a, b, c =>
    let (a, b, c) := absorb k a b c
    let (a, b, c) := mix a b c
    blocks (b12 :: rest) a b c
  | k, a, b, c =>
    let (a, b, c) := absorb k a b c
    (final a b c).2.2

/-- Reference `hashlittle(key, length, initval)` of lookup3:
`a = b = c = 0xdeadbeef + length + initval` modulo `2 ^ 32`, then the block walk. -/
def hashlittle (data : List Byte) (initval : Nat) : Nat :=
  let s := (0xdeadbeef + data.length + initval) % 2 ^ 32
  blocks data s s s

end Reference

/-! ## Checksum trailers

The superblock check of `jenkins_hdf5_test.go` (lines 52-56) reads the stored checksum
with `binary.LittleEndian.Uint32(buf[44:48])` and compares it with
`JenkinsChecksum(buf[0:44])`. -/

/-- Go slice expression `b[lo:hi]` on a slice whose capacity equals its length, as
`buf := make([]byte, 48)` of the test (line 30): Go panics unless `lo ≤ hi ≤ cap(b)`, and
`cap(b)` is `len(b)` here. -/
def slice (b : List Byte) (lo hi : Nat) : Except GoPanic (List Byte) :=
  if lo ≤ hi ∧ hi ≤ b.length then .ok ((b.take hi).drop lo) else .error .indexOutOfRange

/-- Go `binary.LittleEndian.Uint32(b)`:
`uint32(b[0]) | uint32(b[1])<<8 | uint32(b[2])<<16 | uint32(b[3])<<24`. -/
def Uint32 (b : List Byte) : Except GoPanic Nat := do
  let b3 ← index b 3
  let b0 ← index b 0
  let b1 ← index b 1
  let b2 ← index b 2
  pure (b0 ||| shl32 b1 8 ||| shl32 b2 16 ||| shl32 b3 24)

/-- The comparison of `TestJenkinsChecksum_RealHDF5Superblock` (lines 52-56) on a
buffer `buf`: the stored trailer `buf[44:48]` against the checksum of `buf[0:44]`. -/
def superblockChecksumMatches (buf : List Byte) : Except GoPanic Bool := do
  let trailer ← slice buf 44 48
  let storedChecksum ← Uint32 trailer
  let covered ← slice buf 0 44
  let computed ← JenkinsChecksum covered
  pure (decide (storedChecksum = computed))

/-- Modelled from the spec: the little-endian packer of the binary encoder (section 4.2),
whose code is not among the sources; `putLE w v` writes the `w` low-order bytes of `v`,
least significant first. -/
def putLE : Nat → Nat → List Byte
  | 0, _ => []
  | w + 1, v => Fin.ofNat (v % 256) :: putLE w (v / 256)

/-- Modelled from the spec: the end-block helper of the binary encoder (section 4.2),
whose code is not among the sources: it computes the Jenkins checksum over the bytes
written since begin-block and appends it as a little-endian u32. -/
def endBlock (body : List Byte) : Except GoPanic (List Byte) := do
  let sum ← JenkinsChecksum body
  pure (body ++ putLE 4 sum)

/-- Modelled from the spec: the undefined address `UNDEF` of the format (all bits set in
an 8-byte offset). -/
def UNDEF : Nat := 2 ^ 64 - 1

/-- Modelled from the spec: bytes 0..44 of the superblock (section 6, first table row),
whose writer is not among the sources: signature, version byte, size-of-offsets 8,
size-of-lengths 8, flags 0, base address 0, superblock-extension address `UNDEF`,
the end-of-file address and the root-group object-header address. -/
def superblockFields (version : Byte) (eofAddress rootAddress : Nat) : List Byte :=
  [0x89, 0x48, 0x44, 0x46, 0x0D, 0x0A, 0x1A, 0x0A] ++ [version, 8, 8, 0] ++
    putLE 8 0 ++ putLE 8 UNDEF ++ putLE 8 eofAddress ++ putLE 8 rootAddress

/-- Modelled from the spec: the emitted superblock (section 6): the fields followed by
the u32 Jenkins checksum over bytes 0..44. -/
def encodeSuperblock (version : Byte) (eofAddress rootAddress : Nat) :
    Except GoPanic (List Byte) :=
  endBlock (superblockFields version eofAddress rootAddress)

/-- Modelled from the spec: the trailer check of section 8, property 2, on a block read
back into a fresh buffer: `lookup3(block[:-4], 0) == u32_le(block[-4:])`, computed with
`JenkinsLookup3` as the superblock test does for its 48 bytes. -/
def blockChecksumMatches (block : List Byte) : Except GoPanic Bool := do
  let n := block.length
  let trailer ← slice block (n - 4) n
  let storedChecksum ← Uint32 trailer
  let covered ← slice block 0 (n - 4)
  let computed ← JenkinsLookup3 covered 0
  pure (decide (storedChecksum = computed))

/-- The trailer invariant of the format (section 3, invariant 1) with the lookup3
reference as checksum function, as it holds of a block written by the reference
implementation: a body of at least one byte followed by the little-endian u32 of
`hashlittle(body, 0)`. -/
def trailerValid (block : List Byte) : Prop :=
  4 < block.length ∧
    block.drop (block.length - 4) =
      putLE 4 (Reference.hashlittle (block.take (block.length - 4)) 0)

instance trailerValid.dec (block : List Byte) : Decidable (trailerValid block) := by
  unfold trailerValid
  exact inferInstance

/-! ## Root attributes: configuration, validation and storage planning

`WithRootAttribute`, `FileWriteConfig`, `CreateForWrite` and `Close` are used by the
tests `root_attributes_*_test.go`; their code is not among the sources. -/

/-- A Go `string`, as its sequence of bytes. -/
abbrev GoString := List Byte

/-- Modelled from the spec: a caller-supplied attribute value (`interface{}` in
`WithRootAttribute`), section 3: text, signed 32/64-bit integers, 32/64-bit floats (kept
as their bit patterns), one-dimensional arrays of those, Go `nil`, or a value of any
other dynamic type. -/
inductive AttrValue where
  | nil
  | text (s : GoString)
  | int32 (v : Int)
  | int64 (v : Int)
  | float32 (bits : Nat)
  | float64 (bits : Nat)
  | textArray (vs : List GoString)
  | int32Array (vs : List Int)
  | int64Array (vs : List Int)
  | float32Array (bits : List Nat)
  | float64Array (bits : List Nat)
  | other (kind : Nat)
  deriving DecidableEq

/-- Modelled from the spec: the configuration surface of section 6, a Go
`map[string]interface{}` seen as an insertion-ordered list of entries with distinct
keys. -/
abbrev AttrMap := List (GoString × AttrValue)

/-- Modelled from the spec: the assignment `m[name] = value` on the insertion-ordered
mapping of section 6: an existing entry keeps its place and takes the new value, a new
name is appended. -/
def AttrMap.set : AttrMap → GoString → AttrValue → AttrMap
  | [], name, value => [(name, value)]
  | (k, v) :: rest, name, value =>
    if k = name then (k, value) :: rest else (k, v) :: AttrMap.set rest name value

/-- Modelled from the spec: the read `m[name]` of that mapping; `none` when the key is
absent. -/
def AttrMap.get (m : AttrMap) (name : GoString) : Option AttrValue :=
  (m.find? (fun e => decide (e.1 = name))).map Prod.snd

/-- Modelled from the spec: the configuration record read by the tests
(`cfg.RootAttributes`); `none` is the nil map of the Go zero value `FileWriteConfig{}`. -/
structure FileWriteConfig where
  RootAttributes : Option AttrMap := none

/-- Modelled from the spec: the option `WithRootAttribute(name, value)` (section 6:
duplicate names resolve last-write-wins at configuration time): it makes the map if it
is nil and assigns `RootAttributes[name] = value`, without validation. -/
def WithRootAttribute (name : GoString) (value : AttrValue) (cfg : FileWriteConfig) :
    FileWriteConfig :=
  { cfg with RootAttributes := some (AttrMap.set (cfg.RootAttributes.getD []) name value) }

/-- Applying options in order, as `opt1(cfg); opt2(cfg); opt3(cfg)` in the tests. -/
def applyOptions (opts : List (FileWriteConfig → FileWriteConfig)) (cfg : FileWriteConfig) :
    FileWriteConfig :=
  opts.foldl (fun c opt => opt c) cfg

/-- The option list `WithRootAttribute(n1, v1), WithRootAttribute(n2, v2), ...` for a
list of name/value pairs. -/
def rootAttributeOptions (attrs : List (GoString × AttrValue)) :
    List (FileWriteConfig → FileWriteConfig) :=
  attrs.map (fun p => WithRootAttribute p.1 p.2)

/-- The value of the last pair with the given name, if any. -/
def lastValue (attrs : List (GoString × AttrValue)) (name : GoString) : Option AttrValue :=
  (attrs.reverse.find? (fun e => decide (e.1 = name))).map Prod.snd

/-- Modelled from the spec: the error kinds of sections 4.8 and 7 that the write of the
root attributes can report: input validation, and a workload beyond the capacity of
the object header, of the single direct block or of the single leaf. -/
inductive WriteError where
  | EmptyName
  | UnsupportedValueKind
  | NilValue
  | NameTooLong
  | HeaderOverflow
  | HeapGrowthUnsupported
  | TreeDepthUnsupported
  deriving DecidableEq

/-- Modelled from the spec: validation of one attribute (section 4.8, failure
semantics): `EmptyName`, `UnsupportedValueKind`, `NilValue`, `NameTooLong` for a name
over 64 KiB. -/
def validateAttribute (name : GoString) (value : AttrValue) : Except WriteError Unit :=
  if name.length = 0 then .error .EmptyName
  else
    match value with
    | .other _ => .error .UnsupportedValueKind
    | .nil => .error .NilValue
    | _ => if name.length > 65536 then .error .NameTooLong else .ok ()

/-- Modelled from the spec: validation of every attribute of the configuration, in map
order, stopping at the first error (section 7: fail fast). -/
def validateAll : AttrMap → Except WriteError Unit
  | [] => .ok ()
  | (name, value) :: rest => do
    validateAttribute name value
    validateAll rest

/-- Modelled from the spec: the format default `max_compact = 8` (section 4.8). -/
def maxCompact : Nat := 8

/-- Modelled from the spec: the capacities the write path works within, whose values
the spec leaves to the implementation: the maximum chunk-0 capacity of the object
header (section 4.4), the maximum direct-block size of the heap, as the bytes it offers
to managed objects (section 4.6), the node size of the B-tree and the heap-ID length
(section 4.7). -/
structure WriteLimits where
  maxChunk0 : Nat
  maxDirectBlockSize : Nat
  nodeSize : Nat
  heapIdLength : Nat

/-- Modelled from the spec: the size of a message in the object header (section 4.4):
1-byte type, 2-byte size, 1-byte flags, then the payload. -/
def messageSize (payloadLength : Nat) : Nat := 4 + payloadLength

/-- Modelled from the spec: the failure of the object-header writer (section 4.4):
`HeaderOverflow` if even a single message exceeds the maximum chunk-0 capacity; the
messages that do not fit chunk 0 together go to a continuation block, so the header
keeps all of them, in order. -/
def checkHeaderMessages (limits : WriteLimits) (payloadLengths : List Nat) :
    Except WriteError Unit :=
  if payloadLengths.all (fun n => decide (messageSize n ≤ limits.maxChunk0)) then .ok ()
  else .error .HeaderOverflow

/-- Modelled from the spec: the payload length of the attribute-info message written in
dense mode (section 4.8, step 5): version and flags bytes, creation-order-max u16, and
the three 8-byte addresses of the heap, the name B-tree and the creation-order B-tree. -/
def attributeInfoLength : Nat := 1 + 1 + 2 + 8 + 8 + 8

/-- Modelled from the spec: a managed heap ID (section 4.6): after the flag byte, the
offset within the heap and the length of the object. -/
structure HeapId where
  offset : Nat
  length : Nat
  deriving DecidableEq

/-- Modelled from the spec: the fractal heap in the single-direct-block regime
(section 4.6): one direct block of `blockSize` bytes for managed objects, and the
objects inserted so far, packed with no inter-object padding. -/
structure FractalHeap where
  blockSize : Nat
  block : List Byte

/-- Modelled from the spec: `insert(bytes) -> heap_id` (section 4.6): the object is
appended to the direct block and the ID holds its offset and length; when the free
space of the block is insufficient the heap would have to grow, which is
`HeapGrowthUnsupported` (section 4.8). -/
def FractalHeap.insert (h : FractalHeap) (obj : List Byte) :
    Except WriteError (FractalHeap × HeapId) :=
  if h.block.length + obj.length ≤ h.blockSize then
    .ok (⟨h.blockSize, h.block ++ obj⟩, ⟨h.block.length, obj.length⟩)
  else
    .error .HeapGrowthUnsupported

/-- Modelled from the spec: resolution of a heap ID to the object it locates (section 3,
invariant 5); `none` when the ID points outside the block. -/
def FractalHeap.read (h : FractalHeap) (id : HeapId) : Option (List Byte) :=
  if id.offset + id.length ≤ h.block.length then
    some ((h.block.drop id.offset).take id.length)
  else
    none

/-- Modelled from the spec: insertion of the encoded attributes in caller order
(section 4.8, dense step 2), recording the returned heap IDs and stopping at the first
insertion that fails. -/
def FractalHeap.insertAll (h : FractalHeap) :
    List (List Byte) → Except WriteError (FractalHeap × List HeapId)
  | [] => .ok (h, [])
  | obj :: objs => do
    let (h1, id) ← h.insert obj
    let (h2, ids) ← FractalHeap.insertAll h1 objs
    pure (h2, id :: ids)

/-- Total number of bytes of a list of encoded objects. -/
def totalBytes (objs : List (List Byte)) : Nat :=
  (objs.map List.length).sum

/-- Modelled from the spec: the heap parameters chosen by the planner (section 4.8,
dense step 1): a direct block sized to the total encoded-attribute bytes with 25%
slack, and no larger than the maximum direct-block size. -/
def chooseBlockSize (limits : WriteLimits) (objs : List (List Byte)) : Nat :=
  min (totalBytes objs + totalBytes objs / 4) limits.maxDirectBlockSize

/-- Modelled from the spec: a B-tree record `(name_hash, heap_id)` (section 4.7). -/
structure BTreeRecord where
  nameHash : Nat
  heapId : HeapId
  deriving DecidableEq

/-- Modelled from the spec: the record order of section 4.7: `name_hash` ascending, ties
broken by heap ID ascending (offset, then length). -/
def BTreeRecord.le (r s : BTreeRecord) : Prop :=
  r.nameHash < s.nameHash ∨
    (r.nameHash = s.nameHash ∧
      (r.heapId.offset < s.heapId.offset ∨
        (r.heapId.offset = s.heapId.offset ∧ r.heapId.length ≤ s.heapId.length)))

instance BTreeRecord.decLe : DecidableRel BTreeRecord.le :=
  fun r s => by unfold BTreeRecord.le; exact inferInstance

/-- Modelled from the spec: `name_hash = lookup3(utf8(name), 0)` (section 4.8, dense
step 3). -/
def nameHash (name : GoString) : Nat :=
  match JenkinsLookup3 name 0 with
  | .ok v => v
  | .error _ => 0

/-- Modelled from the spec: the encoded size of a record of type 8 (section 4.7):
`name_hash` u32, the heap ID, `creation_order` u32 and the flags byte. -/
def recordSize (limits : WriteLimits) : Nat := 4 + limits.heapIdLength + 4 + 1

/-- Modelled from the spec: the number of records a single leaf holds (section 4.7):
the node without its signature, version and type bytes and its checksum, divided by
the record size, and at most 65535 because the header stores the number of records in
the root as a u16. -/
def leafCapacity (limits : WriteLimits) : Nat :=
  min ((limits.nodeSize - 10) / recordSize limits) 65535

/-- Modelled from the spec: the B-tree of the write path (section 4.7), a single leaf of
depth 0 holding the records in order; more records than the leaf holds would need
internal nodes, which is `TreeDepthUnsupported` (section 7). -/
def buildLeaf (limits : WriteLimits) (records : List BTreeRecord) :
    Except WriteError (List BTreeRecord) :=
  if records.length ≤ leafCapacity limits then
    .ok (records.insertionSort BTreeRecord.le)
  else
    .error .TreeDepthUnsupported

/-- Modelled from the spec: what the planner writes for the root attributes: either the
inline attribute messages in caller order (section 3, invariant 4), or a fractal heap
with a single B-tree leaf (sections 4.6 and 4.7). -/
inductive AttributeStorage where
  | compact (messages : List (List Byte))
  | dense (heap : FractalHeap) (leaf : List BTreeRecord)

/-- Modelled from the spec: the attribute storage planner (section 4.8), whose code is
not among the sources: on create-new-file compact iff `|A| ≤ max_compact`, else dense.
Compact writes the attribute messages into the object header.  Dense sizes the heap,
inserts each encoded attribute in caller order, sorts the records
`(name_hash, heap_id)` into the single leaf and writes the attribute-info message into
the object header.  Each step can fail as sections 4.4, 4.8 and 7 say.  The attribute
message encoder of section 4.5 is the parameter `enc`. -/
def planAttributes (limits : WriteLimits) (enc : GoString → AttrValue → List Byte)
    (attrs : AttrMap) : Except WriteError AttributeStorage :=
  if attrs.length ≤ maxCompact then do
    let messages := attrs.map (fun p => enc p.1 p.2)
    checkHeaderMessages limits (messages.map List.length)
    pure (.compact messages)
  else do
    let objects := attrs.map (fun p => enc p.1 p.2)
    let (heap, ids) ← FractalHeap.insertAll ⟨chooseBlockSize limits objects, []⟩ objects
    let records := List.zipWith (fun p id => BTreeRecord.mk (nameHash p.1) id) attrs ids
    let leaf ← buildLeaf limits records
    checkHeaderMessages limits [attributeInfoLength]
    pure (.dense heap leaf)

/-- The regime within which sections 4.8 and 9 promise a successful write: in compact
mode every attribute message fits chunk 0; in dense mode the encoded attributes fit one
direct block, the records fit the single leaf and the attribute-info message fits
chunk 0. -/
def withinRegime (limits : WriteLimits) (enc : GoString → AttrValue → List Byte)
    (attrs : AttrMap) : Prop :=
  if attrs.length ≤ maxCompact then
    ∀ p ∈ attrs, messageSize (enc p.1 p.2).length ≤ limits.maxChunk0
  else
    totalBytes (attrs.map (fun p => enc p.1 p.2)) ≤ limits.maxDirectBlockSize ∧
      attrs.length ≤ leafCapacity limits ∧
      messageSize attributeInfoLength ≤ limits.maxChunk0

instance withinRegime.dec (limits : WriteLimits) (enc : GoString → AttrValue → List Byte)
    (attrs : AttrMap) : Decidable (withinRegime limits enc attrs) := by
  unfold withinRegime
  exact inferInstance

/-- Modelled from the spec: whether the planner chose dense storage. -/
def AttributeStorage.isDense : AttributeStorage → Bool
  | .compact _ => false
  | .dense _ _ => true

/-- Modelled from the spec: the encoded attributes found when the storage is read back:
the inline messages, or each leaf record resolved through its heap ID (section 3,
invariant 5); `none` marks a record that does not resolve. -/
def AttributeStorage.readBack : AttributeStorage → List (Option (List Byte))
  | .compact messages => messages.map some
  | .dense heap leaf => leaf.map (fun r => heap.read r.heapId)

/-- Modelled from the spec: the file writer returned by `CreateForWrite`, holding the
configuration built from the options. -/
structure FileWriter where
  config : FileWriteConfig

/-- Modelled from the spec: `CreateForWrite(path, mode, options...)` restricted to the
root attributes: the options are applied to an empty configuration; input validation is
surfaced at close time (section 7). -/
def CreateForWrite (opts : List (FileWriteConfig → FileWriteConfig)) :
    Except WriteError FileWriter :=
  .ok ⟨applyOptions opts {}⟩

/-- Modelled from the spec: `Close` on the writer: the attributes are validated before
any byte is written (section 4.8), then the planner runs and its errors are surfaced
(section 7). -/
def FileWriter.Close (limits : WriteLimits) (enc : GoString → AttrValue → List Byte)
    (fw : FileWriter) : Except WriteError AttributeStorage := do
  let attrs := fw.config.RootAttributes.getD []
  validateAll attrs
  planAttributes limits enc attrs

/-- The nine attributes `Attr1 .. Attr9` with values `value1 .. value9` of the dense
storage test (root_attributes_dense_test.go, lines 27-36). -/
def nineAttributes : AttrMap :=
  (List.range 9).map (fun i =>
    (ascii ("Attr") ++ [Fin.ofNat (49 + i)],
      AttrValue.text (ascii ("value") ++ [Fin.ofNat (49 + i)])))

/-- Limits under which the workloads of the tests (up to 50 attributes) and of
section 4.7 (a few hundred attributes in a single leaf) fit: 64 KiB for chunk 0 and for
the direct block, 4096-byte nodes, 8-byte heap IDs. -/
def exampleLimits : WriteLimits :=
  { maxChunk0 := 65536, maxDirectBlockSize := 65536, nodeSize := 4096, heapIdLength := 8 }

/-- A stand-in for the attribute message encoder on text values: the name, a zero byte
and the bytes of the value. -/
def exampleEncoder (name : GoString) (value : AttrValue) : List Byte :=
  match value with
  | .text s => name ++ [0] ++ s
  | _ => name ++ [0]

/-! ## The block loop with a count of its mix rounds -/

/-- One pass through the body of the block loop (lines 26-50): the three word
additions, the mix, and `k = k[12:]`. -/
def blockStep (k : List Byte) (a b c : Nat) : Except GoPanic (List Byte × Nat × Nat × Nat) := do
  let k0 ← index k 0
  let k1 ← index k 1
  let k2 ← index k 2
  let k3 ← index k 3
  let a := add32 a (k0 ||| shl32 k1 8 ||| shl32 k2 16 ||| shl32 k3 24)
  let k4 ← index k 4
  let k5 ← index k 5
  let k6 ← index k 6
  let k7 ← index k 7
  let b := add32 b (k4 ||| shl32 k5 8 ||| shl32 k6 16 ||| shl32 k7 24)
  let k8 ← index k 8
  let k9 ← index k 9
  let k10 ← index k 10
  let k11 ← index k 11
  let c := add32 c (k8 ||| shl32 k9 8 ||| shl32 k10 16 ||| shl32 k11 24)
  let (a, b, c) := mixRound a b c
  pure (k.drop 12, a, b, c)

/-- The loop `for len(k) > 12 { ... }` (lines 25-51) with a ghost counter `rounds`, one
more for every pass through the body; as in `blockLoop` the first argument bounds the
number of times the loop condition is evaluated. -/
def blockLoopRounds : Nat → Nat → List Byte → Nat → Nat → Nat →
    Except GoPanic (Nat × List Byte × Nat × Nat × Nat)
  | 0, _, _, _, _, _ => .error .outOfFuel
  | fuel + 1, rounds, k, a, b, c =>
    if k.length > 12 then do
      let (k, a, b, c) ← blockStep k a b c
      blockLoopRounds fuel (rounds + 1) k a b c
    else
      .ok (rounds, k, a, b, c)

/-- The function `JenkinsLookup3` with the ghost counter of `blockLoopRounds`: the
number of mix rounds performed together with the returned hash. -/
def JenkinsLookup3Rounds (data : List Byte) (initval : Nat) : Except GoPanic (Nat × Nat) :=
  let length := data.length
  if length = 0 then
    .ok (0, 0)
  else do
    let a := add32 (add32 0xdeadbeef (length % 2 ^ 32)) initval
    let b := a
    let c := a
    let k := data
    let (rounds, k, a, b, c) ← blockLoopRounds length 0 k a b c
    let hash ← lastBlock k a b c
    pure (rounds, hash)

/-- The common initial value of `a`, `b` and `c` (lines 18-20) written as one sum:
`0xdeadbeef + n + initval` modulo `2 ^ 32`. -/
def initialState (n initval : Nat) : Nat := (0xdeadbeef + n + initval) % 2 ^ 32

/-! ## The mix round as a permutation of the state -/

/-- The inverse of the mix round: the eighteen statements of lines 31-48 undone in
reverse order (`b += a` by `b -= a`, `c ^= rot(b, 4)` by the same xor, `c -= b` by
`c += b`, and so on up to `a -= c`). -/
def unmixRound (a b c : Nat) : Nat × Nat × Nat :=
  let b := sub32 b a
  let c := c ^^^ (shl32 b 4 ||| shr32 b 28)
  let c := add32 c b
  let a := sub32 a c
  let b := b ^^^ (shl32 a 19 ||| shr32 a 13)
  let b := add32 b a
  let c := sub32 c b
  let a := a ^^^ (shl32 c 16 ||| shr32 c 16)
  let a := add32 a c
  let b := sub32 b a
  let c := c ^^^ (shl32 b 8 ||| shr32 b 24)
  let c := add32 c b
  let a := sub32 a c
  let b := b ^^^ (shl32 a 6 ||| shr32 a 26)
  let b := add32 b a
  let c := sub32 c b
  let a := a ^^^ (shl32 c 4 ||| shr32 c 28)
  let a := add32 a c
  (a, b, c)

/-- One line of the mix, `x -= y; x ^= (y << s) | (y >> t); y += z`, on the words in
the order `(x, y, z)`; the result is in the order `(z, x, y)`, in which the next line
reads it. -/
def mixLine (s t : Nat) (p : Nat × Nat × Nat) : Nat × Nat × Nat :=
  (p.2.2, sub32 p.1 p.2.1 ^^^ (shl32 p.2.1 s ||| shr32 p.2.1 t), add32 p.2.1 p.2.2)

/-- The line `mixLine s t` undone: from `(z, x, y)` back to the words before it. -/
def unmixLine (s t : Nat) (p : Nat × Nat × Nat) : Nat × Nat × Nat :=
  (add32 (p.2.1 ^^^ (shl32 (sub32 p.2.2 p.1) s ||| shr32 (sub32 p.2.2 p.1) t))
      (sub32 p.2.2 p.1),
    sub32 p.2.2 p.1, p.1)

/-- The triples of 32-bit words. -/
def Word32x3 : Set (Nat × Nat × Nat) :=
  {p | p.1 < 2 ^ 32 ∧ p.2.1 < 2 ^ 32 ∧ p.2.2 < 2 ^ 32}

/-! ## The call on a slice of a backing array

`JenkinsLookup3` once more, read statement by statement against an explicit memory:
`data` is a slice header over a backing array and the call returns the memory it leaves
behind together with the hash.  The function contains no assignment through `data` or
`k`: every statement that touches memory is a read `k[i]`. -/

/-- A Go slice header over a backing array: the position of element 0 in the array and
the length. -/
structure Slice where
  off : Nat
  len : Nat

/-- The bytes a slice denotes in the memory `mem`. -/
def Slice.bytes (mem : List Byte) (k : Slice) : List Byte :=
  (mem.drop k.off).take k.len

/-- A header that lies within the memory, as every Go slice does. -/
def Slice.Valid (mem : List Byte) (k : Slice) : Prop :=
  k.off + k.len ≤ mem.length

instance Slice.decValid (mem : List Byte) (k : Slice) : Decidable (k.Valid mem) := by
  unfold Slice.Valid
  exact inferInstance

/-- Slice access `uint32(k[i])` through the header: bounds-checked against `len(k)`,
then read from the backing array. -/
def Slice.index (mem : List Byte) (k : Slice) (i : Nat) : Except GoPanic Nat :=
  if i < k.len then
    match mem[k.off + i]? with
    | some v => .ok v.val
    | none => .error .indexOutOfRange
  else
    .error .indexOutOfRange

/-- The reslice `k[12:]` on headers. -/
def Slice.from12 (k : Slice) : Slice :=
  ⟨k.off + 12, k.len - 12⟩

namespace InMemory

/-- The loop of lines 25-51 over a slice header. -/
def blockLoop : Nat → List Byte → Slice → Nat → Nat → Nat →
    Except GoPanic (Slice × Nat × Nat × Nat)
  | 0, _, _, _, _, _ => .error .outOfFuel
  | fuel + 1, mem, k, a, b, c =>
    if k.len > 12 then do
      let k0 ← k.index mem 0
      let k1 ← k.index mem 1
      let k2 ← k.index mem 2
      let k3 ← k.index mem 3
      let a := add32 a (k0 ||| shl32 k1 8 ||| shl32 k2 16 ||| shl32 k3 24)
      let k4 ← k.index mem 4
      let k5 ← k.index mem 5
      let k6 ← k.index mem 6
      let k7 ← k.index mem 7
      let b := add32 b (k4 ||| shl32 k5 8 ||| shl32 k6 16 ||| shl32 k7 24)
      let k8 ← k.index mem 8
      let k9 ← k.index mem 9
      let k10 ← k.index mem 10
      let k11 ← k.index mem 11
      let c := add32 c (k8 ||| shl32 k9 8 ||| shl32 k10 16 ||| shl32 k11 24)
      let (a, b, c) := mixRound a b c
      blockLoop fuel mem k.from12 a b c
    else
      .ok (k, a, b, c)

/-- One arm of the tail switch over a slice header. -/
def fallInto (mem : List Byte) (n label : Nat) (k : Slice) (i s : Nat) (x : Nat) :
    Except GoPanic Nat :=
  if label ≤ n ∧ n ≤ 12 then do
    let v ← k.index mem i
    pure (add32 x (shl32 v s))
  else
    pure x

/-- The tail switch and the final mix over a slice header. -/
def lastBlock (mem : List Byte) (k : Slice) (a b c : Nat) : Except GoPanic Nat :=
  let n := k.len
  if n = 0 then
    .ok c
  else do
    let c ← fallInto mem n 12 k 11 24 c
    let c ← fallInto mem n 11 k 10 16 c
    let c ← fallInto mem n 10 k 9 8 c
    let c ← fallInto mem n 9 k 8 0 c
    let b ← fallInto mem n 8 k 7 24 b
    let b ← fallInto mem n 7 k 6 16 b
    let b ← fallInto mem n 6 k 5 8 b
    let b ← fallInto mem n 5 k 4 0 b
    let a ← fallInto mem n 4 k 3 24 a
    let a ← fallInto mem n 3 k 2 16 a
    let a ← fallInto mem n 2 k 1 8 a
    let a ← fallInto mem n 1 k 0 0 a
    .ok (finalMix a b c)

/-- The call `JenkinsLookup3(data, initval)` in the memory `mem`: the returned hash and
the memory after the call. -/
def JenkinsLookup3 (mem : List Byte) (data : Slice) (initval : Nat) :
    Except GoPanic (Nat × List Byte) :=
  let length := data.len
  if length = 0 then
    .ok (0, mem)
  else do
    let a := add32 (add32 0xdeadbeef (length % 2 ^ 32)) initval
    let b := a
    let c := a
    let k := data
    let (k, a, b, c) ← blockLoop length mem k a b c
    let hash ← lastBlock mem k a b c
    pure (hash, mem)

/-- The call `JenkinsChecksum(data)` in the memory `mem`. -/
def JenkinsChecksum (mem : List Byte) (data : Slice) : Except GoPanic (Nat × List Byte) :=
  JenkinsLookup3 mem data 0

end InMemory

/-! ## Word-level facts -/

theorem add32_lt (x y : Nat) : add32 x y < 2 ^ 32 :=
  Nat.mod_lt _ (by decide)

theorem sub32_lt (x y : Nat) : sub32 x y < 2 ^ 32 :=
  Nat.mod_lt _ (by decide)

theorem shl32_lt (x s : Nat) : shl32 x s < 2 ^ 32 :=
  Nat.mod_lt _ (by decide)

theorem shr32_lt {x : Nat} (s : Nat) (hx : x < 2 ^ 32) : shr32 x s < 2 ^ 32 := by
  unfold shr32
  rw [Nat.shiftRight_eq_div_pow]
  exact lt_of_le_of_lt (Nat.div_le_self _ _) hx

theorem rotOr_lt {x : Nat} (s t : Nat) (hx : x < 2 ^ 32) :
    shl32 x s ||| shr32 x t < 2 ^ 32 :=
  Nat.or_lt_two_pow (shl32_lt x s) (shr32_lt t hx)

theorem xorRot_lt {x y : Nat} (s t : Nat) (hx : x < 2 ^ 32) (hy : y < 2 ^ 32) :
    x ^^^ (shl32 y s ||| shr32 y t) < 2 ^ 32 :=
  Nat.xor_lt_two_pow hx (rotOr_lt s t hy)

theorem mixRound_lt {a b c : Nat} (hc : c < 2 ^ 32) :
    (mixRound a b c).1 < 2 ^ 32 ∧ (mixRound a b c).2.1 < 2 ^ 32 ∧
      (mixRound a b c).2.2 < 2 ^ 32 := by
  simp only [mixRound]
  refine ⟨add32_lt _ _, add32_lt _ _, ?_⟩
  repeat first
    | exact sub32_lt _ _
    | exact add32_lt _ _
    | exact hc
    | apply xorRot_lt

theorem finalMix_lt (a b c : Nat) : finalMix a b c < 2 ^ 32 := by
  simp only [finalMix]
  exact sub32_lt _ _

theorem shl32_byte {v s : Nat} (hv : v < 256) (hs : s ≤ 24) : shl32 v s = 2 ^ s * v := by
  unfold shl32
  rw [Nat.shiftLeft_eq, Nat.mul_comm]
  apply Nat.mod_eq_of_lt
  calc 2 ^ s * v < 2 ^ s * 256 := Nat.mul_lt_mul_of_pos_left hv (Nat.two_pow_pos s)
    _ ≤ 2 ^ 24 * 256 := Nat.mul_le_mul_right _ (Nat.pow_le_pow_right (by decide) hs)
    _ = 2 ^ 32 := by norm_num

theorem orWord_eq {v0 v1 v2 v3 : Nat} (h0 : v0 < 256) (h1 : v1 < 256) (h2 : v2 < 256)
    (h3 : v3 < 256) :
    v0 ||| shl32 v1 8 ||| shl32 v2 16 ||| shl32 v3 24 = Reference.leWord v0 v1 v2 v3 := by
  rw [shl32_byte h1 (by decide), shl32_byte h2 (by decide), shl32_byte h3 (by decide)]
  have e1 : v0 ||| 2 ^ 8 * v1 = 2 ^ 8 * v1 + v0 := by
    rw [Nat.or_comm]; exact (Nat.mul_add_lt_is_or (by simpa using h0) v1).symm
  have e2 : (2 ^ 8 * v1 + v0) ||| 2 ^ 16 * v2 = 2 ^ 16 * v2 + (2 ^ 8 * v1 + v0) := by
    rw [Nat.or_comm]; exact (Nat.mul_add_lt_is_or (by norm_num; omega) v2).symm
  have e3 : (2 ^ 16 * v2 + (2 ^ 8 * v1 + v0)) ||| 2 ^ 24 * v3
      = 2 ^ 24 * v3 + (2 ^ 16 * v2 + (2 ^ 8 * v1 + v0)) := by
    rw [Nat.or_comm]; exact (Nat.mul_add_lt_is_or (by norm_num; omega) v3).symm
  rw [e1, e2, e3]
  unfold Reference.leWord
  omega

theorem finalMix_eq (a b c : Nat) : finalMix a b c = (Reference.final a b c).2.2 := rfl

theorem mixRound_eq (a b c : Nat) : mixRound a b c = Reference.mix a b c := rfl

theorem thirteen_of_length {k : List Byte} (h : k.length > 12) :
    ∃ b0 b1 b2 b3 b4 b5 b6 b7 b8 b9 b10 b11 b12 rest,
      k = b0 :: b1 :: b2 :: b3 :: b4 :: b5 :: b6 :: b7 :: b8 :: b9 :: b10 :: b11 :: b12 :: rest := by
  rcases k with _ | ⟨b0, _ | ⟨b1, _ | ⟨b2, _ | ⟨b3, _ | ⟨b4, _ | ⟨b5, _ | ⟨b6, _ | ⟨b7,
    _ | ⟨b8, _ | ⟨b9, _ | ⟨b10, _ | ⟨b11, _ | ⟨b12, rest⟩⟩⟩⟩⟩⟩⟩⟩⟩⟩⟩⟩⟩ <;>
    first
    | (simp at h; done)
    | (simp at h; omega)
    | exact ⟨_, _, _, _, _, _, _, _, _, _, _, _, _, _, rfl⟩

theorem index_zero (v : Byte) (k : List Byte) : index (v :: k) 0 = .ok v.val := by
  simp [index]

theorem index_succ (v : Byte) (k : List Byte) (i : Nat) : index (v :: k) (i + 1) = index k i := by
  simp [index]

theorem index_nil (i : Nat) : index [] i = .error .indexOutOfRange := by
  simp [index]

theorem ok_bind {α β : Type} (x : α) (f : α → Except GoPanic β) :
    (Except.ok x >>= f) = f x := rfl

theorem pure_eq_ok {α : Type} (x : α) : (pure x : Except GoPanic α) = .ok x := rfl

theorem blockLoop_step (fuel : Nat) (b0 b1 b2 b3 b4 b5 b6 b7 b8 b9 b10 b11 b12 : Byte)
    (rest : List Byte) (a b c : Nat) :
    blockLoop (fuel + 1)
      (b0 :: b1 :: b2 :: b3 :: b4 :: b5 :: b6 :: b7 :: b8 :: b9 :: b10 :: b11 :: b12 :: rest)
      a b c =
    blockLoop fuel (b12 :: rest)
      (mixRound (add32 a (Reference.leWord b0 b1 b2 b3)) (add32 b (Reference.leWord b4 b5 b6 b7))
        (add32 c (Reference.leWord b8 b9 b10 b11))).1
      (mixRound (add32 a (Reference.leWord b0 b1 b2 b3)) (add32 b (Reference.leWord b4 b5 b6 b7))
        (add32 c (Reference.leWord b8 b9 b10 b11))).2.1
      (mixRound (add32 a (Reference.leWord b0 b1 b2 b3)) (add32 b (Reference.leWord b4 b5 b6 b7))
        (add32 c (Reference.leWord b8 b9 b10 b11))).2.2 := by
  rw [blockLoop]
  rw [if_pos (by simp)]
  simp only [index_succ, index_zero, ok_bind, List.drop_succ_cons, List.drop_zero]
  rw [orWord_eq b0.isLt b1.isLt b2.isLt b3.isLt, orWord_eq b4.isLt b5.isLt b6.isLt b7.isLt,
    orWord_eq b8.isLt b9.isLt b10.isLt b11.isLt]

theorem blockLoop_exit (fuel : Nat) (k : List Byte) (a b c : Nat) (h : k.length ≤ 12) :
    blockLoop (fuel + 1) k a b c = .ok (k, a, b, c) := by
  rw [blockLoop]
  rw [if_neg (by omega)]

theorem blocks_step (b0 b1 b2 b3 b4 b5 b6 b7 b8 b9 b10 b11 b12 : Byte)
    (rest : List Byte) (a b c : Nat) :
    Reference.blocks
      (b0 :: b1 :: b2 :: b3 :: b4 :: b5 :: b6 :: b7 :: b8 :: b9 :: b10 :: b11 :: b12 :: rest)
      a b c =
    Reference.blocks (b12 :: rest)
      (mixRound (add32 a (Reference.leWord b0 b1 b2 b3)) (add32 b (Reference.leWord b4 b5 b6 b7))
        (add32 c (Reference.leWord b8 b9 b10 b11))).1
      (mixRound (add32 a (Reference.leWord b0 b1 b2 b3)) (add32 b (Reference.leWord b4 b5 b6 b7))
        (add32 c (Reference.leWord b8 b9 b10 b11))).2.1
      (mixRound (add32 a (Reference.leWord b0 b1 b2 b3)) (add32 b (Reference.leWord b4 b5 b6 b7))
        (add32 c (Reference.leWord b8 b9 b10 b11))).2.2 := by
  rw [Reference.blocks]
  simp only [Reference.absorb, Reference.wordAt, Reference.padByte, List.getD_cons_succ,
    List.getD_cons_zero, mixRound_eq]

theorem blockLoop_spec : ∀ (fuel : Nat) (k : List Byte) (a b c : Nat),
    k ≠ [] → k.length ≤ fuel → a < 2 ^ 32 → b < 2 ^ 32 → c < 2 ^ 32 →
    ∃ k1 a1 b1 c1, blockLoop fuel k a b c = .ok (k1, a1, b1, c1) ∧
      k1 ≠ [] ∧ k1.length ≤ 12 ∧ a1 < 2 ^ 32 ∧ b1 < 2 ^ 32 ∧ c1 < 2 ^ 32 ∧
      Reference.blocks k a b c = Reference.blocks k1 a1 b1 c1 := by
  intro fuel
  induction fuel with
  | zero =>
    intro k a b c hk hlen
    cases k with
    | nil => exact absurd rfl hk
    | cons v t => simp at hlen
  | succ fuel ih =>
    intro k a b c hk hlen ha hb hc
    by_cases h : k.length > 12
    · obtain ⟨b0, b1, b2, b3, b4, b5, b6, b7, b8, b9, b10, b11, b12, rest, rfl⟩ :=
        thirteen_of_length h
      rw [blockLoop_step, blocks_step]
      have hm := mixRound_lt (a := add32 a (Reference.leWord b0 b1 b2 b3))
        (b := add32 b (Reference.leWord b4 b5 b6 b7))
        (c := add32 c (Reference.leWord b8 b9 b10 b11)) (add32_lt _ _)
      refine ih (b12 :: rest) _ _ _ (List.cons_ne_nil _ _) ?_ hm.1 hm.2.1 hm.2.2
      simp only [List.length_cons] at hlen ⊢
      omega
    · rw [blockLoop_exit fuel k a b c (by omega)]
      exact ⟨k, a, b, c, rfl, hk, by omega, ha, hb, hc, rfl⟩

theorem fallInto_skip {n label : Nat} (k : List Byte) (i s x : Nat) (h : ¬ (label ≤ n ∧ n ≤ 12)) :
    fallInto n label k i s x = .ok x := by
  unfold fallInto
  rw [if_neg h]
  rfl

theorem fallInto_run {n label : Nat} (k : List Byte) (i s x : Nat) (h : label ≤ n ∧ n ≤ 12) :
    fallInto n label k i s x = (index k i >>= fun v => .ok (add32 x (shl32 v s))) := by
  unfold fallInto
  rw [if_pos h]
  rfl

theorem blocks_short (k : List Byte) (a b c : Nat) (hk : k ≠ []) (h : k.length ≤ 12) :
    Reference.blocks k a b c =
      finalMix (add32 a (Reference.wordAt k 0)) (add32 b (Reference.wordAt k 4))
        (add32 c (Reference.wordAt k 8)) := by
  rw [Reference.blocks]
  · simp only [Reference.absorb, finalMix_eq]
  · exact hk
  · intro h0 h1 h2 h3 h4 h5 h6 h7 h8 h9 h10 h11 h12 rest hk
    rw [hk] at h
    simp only [List.length_cons] at h
    omega

theorem index_eq_padByte {k : List Byte} {i : Nat} (h : i < k.length) :
    index k i = .ok (Reference.padByte k i) := by
  simp [index, Reference.padByte, List.getD, List.getElem?_eq_getElem h]

theorem padByte_eq_zero {k : List Byte} {i : Nat} (h : k.length ≤ i) :
    Reference.padByte k i = 0 := by
  simp [Reference.padByte, List.getD, List.getElem?_eq_none h]

theorem padByte_lt (k : List Byte) (i : Nat) : Reference.padByte k i < 256 :=
  (k.getD i 0).isLt

theorem fallInto_eq (k : List Byte) (label i s x : Nat) (hl : label = i + 1)
    (hn : k.length ≤ 12) (hs : s ≤ 24) (hx : x < 2 ^ 32) :
    fallInto k.length label k i s x = .ok (add32 x (2 ^ s * Reference.padByte k i)) := by
  by_cases h : label ≤ k.length
  · rw [fallInto_run k i s x ⟨h, hn⟩, index_eq_padByte (by omega), ok_bind,
      shl32_byte (padByte_lt k i) hs]
  · rw [fallInto_skip k i s x (fun hh => h hh.1), padByte_eq_zero (by omega)]
    simp only [add32, Nat.mul_zero, Nat.add_zero]
    rw [Nat.mod_eq_of_lt hx]

theorem add32_word (x p0 p1 p2 p3 : Nat) :
    add32 (add32 (add32 (add32 x (2 ^ 24 * p3)) (2 ^ 16 * p2)) (2 ^ 8 * p1)) (2 ^ 0 * p0) =
      add32 x (Reference.leWord p0 p1 p2 p3) := by
  simp only [add32, Reference.leWord]
  omega

theorem lastBlock_eq (k : List Byte) (a b c : Nat) (hk : k ≠ []) (hn : k.length ≤ 12)
    (ha : a < 2 ^ 32) (hb : b < 2 ^ 32) (hc : c < 2 ^ 32) :
    lastBlock k a b c = .ok (Reference.blocks k a b c) := by
  have h0 : ¬ k.length = 0 := fun h => hk (List.length_eq_zero.mp h)
  rw [blocks_short k a b c hk hn]
  simp only [lastBlock]
  rw [if_neg h0]
  rw [fallInto_eq k 12 11 24 c rfl hn (by decide) hc, ok_bind]
  rw [fallInto_eq k 11 10 16 _ rfl hn (by decide) (add32_lt _ _), ok_bind]
  rw [fallInto_eq k 10 9 8 _ rfl hn (by decide) (add32_lt _ _), ok_bind]
  rw [fallInto_eq k 9 8 0 _ rfl hn (by decide) (add32_lt _ _), ok_bind]
  rw [fallInto_eq k 8 7 24 b rfl hn (by decide) hb, ok_bind]
  rw [fallInto_eq k 7 6 16 _ rfl hn (by decide) (add32_lt _ _), ok_bind]
  rw [fallInto_eq k 6 5 8 _ rfl hn (by decide) (add32_lt _ _), ok_bind]
  rw [fallInto_eq k 5 4 0 _ rfl hn (by decide) (add32_lt _ _), ok_bind]
  rw [fallInto_eq k 4 3 24 a rfl hn (by decide) ha, ok_bind]
  rw [fallInto_eq k 3 2 16 _ rfl hn (by decide) (add32_lt _ _), ok_bind]
  rw [fallInto_eq k 2 1 8 _ rfl hn (by decide) (add32_lt _ _), ok_bind]
  rw [fallInto_eq k 1 0 0 _ rfl hn (by decide) (add32_lt _ _), ok_bind]
  rw [add32_word, add32_word, add32_word]
  rfl

theorem initial_eq (n initval : Nat) :
    add32 (add32 0xdeadbeef (n % 2 ^ 32)) initval = (0xdeadbeef + n + initval) % 2 ^ 32 := by
  simp only [add32]
  omega

theorem JenkinsLookup3_eq_hashlittle (data : List Byte) (initval : Nat) (h : data ≠ []) :
    JenkinsLookup3 data initval = .ok (Reference.hashlittle data initval) := by
  have h0 : ¬ data.length = 0 := fun e => h (List.length_eq_zero.mp e)
  have hs : (0xdeadbeef + data.length + initval) % 2 ^ 32 < 2 ^ 32 := Nat.mod_lt _ (by decide)
  obtain ⟨k1, a1, b1, c1, hloop, hk1, hn1, ha1, hb1, hc1, href⟩ :=
    blockLoop_spec data.length data _ _ _ h (Nat.le_refl _) hs hs hs
  simp only [JenkinsLookup3, Reference.hashlittle]
  rw [if_neg h0, initial_eq, hloop, ok_bind, href]
  exact lastBlock_eq k1 a1 b1 c1 hk1 hn1 ha1 hb1 hc1

theorem JenkinsLookup3_nil (initval : Nat) : JenkinsLookup3 [] initval = .ok 0 := rfl

theorem JenkinsLookup3_total (data : List Byte) (initval : Nat) :
    ∃ v, JenkinsLookup3 data initval = .ok v ∧ v < 2 ^ 32 := by
  by_cases h : data = []
  · subst h
    exact ⟨0, JenkinsLookup3_nil initval, by decide⟩
  · refine ⟨_, JenkinsLookup3_eq_hashlittle data initval h, ?_⟩
    obtain ⟨k1, a1, b1, c1, -, hk1, hn1, -, -, -, href⟩ :=
      blockLoop_spec data.length data _ _ _ h (Nat.le_refl _)
        (Nat.mod_lt (0xdeadbeef + data.length + initval) (by decide))
        (Nat.mod_lt (0xdeadbeef + data.length + initval) (by decide))
        (Nat.mod_lt (0xdeadbeef + data.length + initval) (by decide))
    simp only [Reference.hashlittle]
    rw [href, blocks_short k1 a1 b1 c1 hk1 hn1]
    exact finalMix_lt _ _ _

/-! ## Checksum trailers -/

theorem putLE_length (w v : Nat) : (putLE w v).length = w := by
  induction w generalizing v with
  | zero => rfl
  | succ w ih => simp [putLE, ih]

theorem byte_val_ofNat (n : Nat) : ((Fin.ofNat n : Byte) : Nat) = n % 256 := rfl

theorem Uint32_putLE (v : Nat) (hv : v < 2 ^ 32) : Uint32 (putLE 4 v) = .ok v := by
  simp only [Uint32, putLE, index_succ, index_zero, ok_bind, byte_val_ofNat, pure_eq_ok]
  rw [orWord_eq (Nat.mod_lt _ (by decide)) (Nat.mod_lt _ (by decide))
    (Nat.mod_lt _ (by decide)) (Nat.mod_lt _ (by decide))]
  simp only [Reference.leWord]
  congr 1
  omega

theorem endBlock_eq (body : List Byte) :
    ∃ v, JenkinsChecksum body = .ok v ∧ v < 2 ^ 32 ∧ endBlock body = .ok (body ++ putLE 4 v) := by
  obtain ⟨v, hv, hlt⟩ := JenkinsLookup3_total body 0
  refine ⟨v, hv, hlt, ?_⟩
  simp only [endBlock, JenkinsChecksum, hv, ok_bind, pure_eq_ok]

theorem slice_covered (body tail : List Byte) :
    slice (body ++ tail) 0 body.length = .ok body := by
  simp [slice]

theorem slice_trailer (body tail : List Byte) :
    slice (body ++ tail) body.length (body.length + tail.length) = .ok tail := by
  have h : List.take (body.length + tail.length) (body ++ tail) = body ++ tail :=
    List.take_of_length_le (by simp)
  simp [slice, h]

theorem four_of_length {t : List Byte} (h : t.length = 4) :
    ∃ t0 t1 t2 t3, t = [t0, t1, t2, t3] := by
  rcases t with _ | ⟨t0, _ | ⟨t1, _ | ⟨t2, _ | ⟨t3, _ | ⟨t4, rest⟩⟩⟩⟩⟩ <;>
    first
    | (simp at h; done)
    | (simp at h; omega)
    | exact ⟨_, _, _, _, rfl⟩

theorem Uint32_four (t0 t1 t2 t3 : Byte) :
    Uint32 [t0, t1, t2, t3] = .ok (Reference.leWord t0 t1 t2 t3) := by
  simp only [Uint32, index_succ, index_zero, ok_bind, pure_eq_ok]
  rw [orWord_eq t0.isLt t1.isLt t2.isLt t3.isLt]

theorem putLE_leWord (t0 t1 t2 t3 : Byte) :
    putLE 4 (Reference.leWord t0 t1 t2 t3) = [t0, t1, t2, t3] := by
  have h0 := t0.isLt
  have h1 := t1.isLt
  have h2 := t2.isLt
  have h3 := t3.isLt
  simp only [putLE, Reference.leWord, List.cons.injEq, and_true]
  refine ⟨?_, ?_, ?_, ?_⟩ <;>
    (apply Fin.ext
     rw [byte_val_ofNat]
     omega)

theorem stored_eq_iff (t : List Byte) (v : Nat) (ht : t.length = 4) (hv : v < 2 ^ 32) :
    ∃ w, Uint32 t = .ok w ∧ (w = v ↔ t = putLE 4 v) := by
  obtain ⟨t0, t1, t2, t3, rfl⟩ := four_of_length ht
  refine ⟨_, Uint32_four t0 t1 t2 t3, ?_⟩
  constructor
  · intro h
    rw [← h, putLE_leWord]
  · intro h
    have h1 := Uint32_four t0 t1 t2 t3
    rw [h, Uint32_putLE v hv] at h1
    exact (Except.ok.inj h1).symm

theorem hashlittle_lt (body : List Byte) (initval : Nat) (h : body ≠ []) :
    Reference.hashlittle body initval < 2 ^ 32 := by
  obtain ⟨v, hv, hlt⟩ := JenkinsLookup3_total body initval
  rw [JenkinsLookup3_eq_hashlittle body initval h] at hv
  rw [Except.ok.inj hv]
  exact hlt

theorem trailer_compare (body t : List Byte) (hb : body ≠ []) (ht : t.length = 4) :
    (Uint32 t >>= fun storedChecksum =>
      JenkinsLookup3 body 0 >>= fun computed =>
        (pure (decide (storedChecksum = computed)) : Except GoPanic Bool)) =
      .ok (decide (t = putLE 4 (Reference.hashlittle body 0))) := by
  obtain ⟨w, hw, hiff⟩ := stored_eq_iff t (Reference.hashlittle body 0) ht
    (hashlittle_lt body 0 hb)
  rw [hw, ok_bind, JenkinsLookup3_eq_hashlittle body 0 hb, ok_bind, pure_eq_ok]
  congr 1
  exact decide_eq_decide.mpr hiff

theorem slice_split (block : List Byte) (h : 4 < block.length) :
    slice block (block.length - 4) block.length = .ok (block.drop (block.length - 4)) ∧
      slice block 0 (block.length - 4) = .ok (block.take (block.length - 4)) ∧
      (block.drop (block.length - 4)).length = 4 ∧
      block.take (block.length - 4) ≠ [] := by
  refine ⟨?_, ?_, ?_, ?_⟩
  · simp [slice]
  · simp [slice]
  · rw [List.length_drop]
    omega
  · intro e
    have hl := congrArg List.length e
    rw [List.length_take] at hl
    simp only [List.length_nil] at hl
    omega

theorem blockChecksumMatches_eq (block : List Byte) (h : 4 < block.length) :
    blockChecksumMatches block = .ok (decide (trailerValid block)) := by
  obtain ⟨h1, h2, h3, h4⟩ := slice_split block h
  have hc := trailer_compare _ _ h4 h3
  simp only [blockChecksumMatches, h1, h2, ok_bind]
  have hswap : (Uint32 (List.drop (block.length - 4) block) >>= fun storedChecksum =>
      JenkinsLookup3 (List.take (block.length - 4) block) 0 >>= fun computed =>
        (pure (decide (storedChecksum = computed)) : Except GoPanic Bool)) =
      .ok (decide (trailerValid block)) := by
    rw [hc]
    congr 1
    apply decide_eq_decide.mpr
    unfold trailerValid
    exact ⟨fun e => ⟨h, e⟩, fun e => e.2⟩
  exact hswap

theorem superblockChecksumMatches_eq (buf : List Byte) (h : buf.length = 48) :
    superblockChecksumMatches buf = .ok (decide (trailerValid buf)) := by
  have hb := blockChecksumMatches_eq buf (by omega)
  simp only [blockChecksumMatches, h] at hb
  simp only [superblockChecksumMatches, JenkinsChecksum]
  exact hb

theorem endBlock_trailerValid (body : List Byte) (hne : body ≠ []) :
    ∃ block, endBlock body = .ok block ∧ block.length = body.length + 4 ∧
      trailerValid block := by
  obtain ⟨v, hv, -, hb⟩ := endBlock_eq body
  have hv2 : JenkinsChecksum body = .ok (Reference.hashlittle body 0) :=
    JenkinsLookup3_eq_hashlittle body 0 hne
  rw [hv2] at hv
  have hvv := Except.ok.inj hv
  subst hvv
  have hpos : 0 < body.length := List.length_pos.mpr hne
  refine ⟨_, hb, by simp [putLE_length], ?_⟩
  unfold trailerValid
  simp [putLE_length, hpos]

theorem superblockFields_length (version : Byte) (eofAddress rootAddress : Nat) :
    (superblockFields version eofAddress rootAddress).length = 44 := by
  simp [superblockFields, putLE_length]

/-! ## The configuration map -/

theorem AttrMap.mem_keys_set (m : AttrMap) (name : GoString) (value : AttrValue)
    (k : GoString) :
    k ∈ (AttrMap.set m name value).map Prod.fst ↔ k = name ∨ k ∈ m.map Prod.fst := by
  induction m with
  | nil => simp [AttrMap.set]
  | cons e rest ih =>
    obtain ⟨k0, v0⟩ := e
    by_cases h : k0 = name
    · subst h
      simp only [AttrMap.set, if_pos, List.map_cons, List.mem_cons]
      tauto
    · simp only [AttrMap.set, if_neg h, List.map_cons, List.mem_cons, ih]
      tauto

theorem AttrMap.nodup_keys_set (m : AttrMap) (name : GoString) (value : AttrValue)
    (hm : (m.map Prod.fst).Nodup) : ((AttrMap.set m name value).map Prod.fst).Nodup := by
  induction m with
  | nil => simp [AttrMap.set]
  | cons e rest ih =>
    obtain ⟨k0, v0⟩ := e
    rw [List.map_cons, List.nodup_cons] at hm
    by_cases h : k0 = name
    · subst h
      simp only [AttrMap.set, if_pos, List.map_cons, List.nodup_cons]
      exact hm
    · simp only [AttrMap.set, if_neg h, List.map_cons, List.nodup_cons,
        AttrMap.mem_keys_set]
      exact ⟨fun hh => hh.elim h hm.1, ih hm.2⟩

theorem AttrMap.get_set (m : AttrMap) (name : GoString) (value : AttrValue) (k : GoString) :
    AttrMap.get (AttrMap.set m name value) k =
      if name = k then some value else AttrMap.get m k := by
  induction m with
  | nil =>
    by_cases h : name = k <;> simp [AttrMap.set, AttrMap.get, h]
  | cons e rest ih =>
    obtain ⟨k0, v0⟩ := e
    simp only [AttrMap.get] at ih
    by_cases h : k0 = name
    · subst h
      by_cases hk : k0 = k <;> simp [AttrMap.set, AttrMap.get, hk]
    · by_cases hk : k0 = k
      · subst hk
        simp [AttrMap.set, AttrMap.get, h, Ne.symm h]
      · simp [AttrMap.set, AttrMap.get, h, hk, ih]

/-- All assignments of a list of pairs, in order. -/
theorem applyOptions_rootAttributes (attrs : List (GoString × AttrValue)) :
    ∀ cfg : FileWriteConfig,
      (applyOptions (rootAttributeOptions attrs) cfg).RootAttributes =
        if attrs = [] then cfg.RootAttributes
        else some (attrs.foldl (fun m p => AttrMap.set m p.1 p.2) (cfg.RootAttributes.getD [])) := by
  induction attrs with
  | nil => intro cfg; rfl
  | cons p ps ih =>
    intro cfg
    have h := ih (WithRootAttribute p.1 p.2 cfg)
    simp only [applyOptions, rootAttributeOptions, List.map_cons, List.foldl_cons] at h ⊢
    rw [h]
    by_cases hps : ps = []
    · subst hps
      simp [WithRootAttribute]
    · simp [hps, WithRootAttribute]

theorem foldl_set_mem_keys (attrs : List (GoString × AttrValue)) :
    ∀ (m : AttrMap) (k : GoString),
      k ∈ (attrs.foldl (fun m p => AttrMap.set m p.1 p.2) m).map Prod.fst ↔
        k ∈ m.map Prod.fst ∨ k ∈ attrs.map Prod.fst := by
  induction attrs with
  | nil => intro m k; simp
  | cons p ps ih =>
    intro m k
    rw [List.foldl_cons, ih, AttrMap.mem_keys_set, List.map_cons, List.mem_cons]
    tauto

theorem foldl_set_nodup_keys (attrs : List (GoString × AttrValue)) :
    ∀ m : AttrMap, (m.map Prod.fst).Nodup →
      ((attrs.foldl (fun m p => AttrMap.set m p.1 p.2) m).map Prod.fst).Nodup := by
  induction attrs with
  | nil => intro m hm; exact hm
  | cons p ps ih =>
    intro m hm
    rw [List.foldl_cons]
    exact ih _ (AttrMap.nodup_keys_set m p.1 p.2 hm)

theorem lastValue_cons (p : GoString × AttrValue) (ps : List (GoString × AttrValue))
    (k : GoString) :
    lastValue (p :: ps) k =
      match lastValue ps k with
      | some v => some v
      | none => if p.1 = k then some p.2 else none := by
  simp only [lastValue, List.reverse_cons, List.find?_append]
  cases h : List.find? (fun e => decide (e.1 = k)) ps.reverse with
  | some e => simp
  | none =>
    by_cases hk : p.1 = k <;> simp [hk]

theorem foldl_set_get (attrs : List (GoString × AttrValue)) :
    ∀ (m : AttrMap) (k : GoString),
      AttrMap.get (attrs.foldl (fun m p => AttrMap.set m p.1 p.2) m) k =
        match lastValue attrs k with
        | some v => some v
        | none => AttrMap.get m k := by
  induction attrs with
  | nil => intro m k; simp [lastValue]
  | cons p ps ih =>
    intro m k
    rw [List.foldl_cons, ih, lastValue_cons, AttrMap.get_set]
    cases lastValue ps k with
    | some v => rfl
    | none =>
      by_cases hk : p.1 = k <;> simp [hk]

/-! ## Validation -/

theorem validateAttribute_empty (value : AttrValue) :
    validateAttribute [] value = .error .EmptyName := rfl

theorem validateAll_cons_ok (name : GoString) (value : AttrValue) (rest : AttrMap)
    (h : validateAttribute name value = .ok ()) :
    validateAll ((name, value) :: rest) = validateAll rest := by
  simp only [validateAll, h]
  rfl

theorem validateAll_cons_error (name : GoString) (value : AttrValue) (rest : AttrMap)
    (e : WriteError) (h : validateAttribute name value = .error e) :
    validateAll ((name, value) :: rest) = .error e := by
  simp only [validateAll, h]
  rfl

theorem validateAll_error_of_empty_key (m : AttrMap) (h : ([] : GoString) ∈ m.map Prod.fst) :
    ∃ e, validateAll m = .error e := by
  induction m with
  | nil => simp at h
  | cons p rest ih =>
    obtain ⟨name, value⟩ := p
    cases hv : validateAttribute name value with
    | error e => exact ⟨e, validateAll_cons_error name value rest e hv⟩
    | ok u =>
      rw [validateAll_cons_ok name value rest hv]
      apply ih
      rw [List.map_cons, List.mem_cons] at h
      rcases h with h | h
      · exfalso
        have hname : name = [] := h.symm
        rw [hname, validateAttribute_empty] at hv
        cases hv
      · exact h

/-! ## The fractal heap and the planner -/

theorem bind_error {α β : Type} (e : WriteError) (f : α → Except WriteError β) :
    ((Except.error e : Except WriteError α) >>= f) = .error e := rfl

theorem bind_ok {α β : Type} (x : α) (f : α → Except WriteError β) :
    ((Except.ok x : Except WriteError α) >>= f) = f x := rfl

theorem FractalHeap.read_inserted (size : Nat) (pre obj t : List Byte) :
    FractalHeap.read ⟨size, pre ++ obj ++ t⟩ ⟨pre.length, obj.length⟩ = some obj := by
  simp [FractalHeap.read, List.append_assoc]

theorem FractalHeap.insertAll_ok (objs : List (List Byte)) :
    ∀ h : FractalHeap, h.block.length + totalBytes objs ≤ h.blockSize →
      ∃ t ids, h.insertAll objs = .ok (⟨h.blockSize, h.block ++ t⟩, ids) ∧
        t.length = totalBytes objs ∧ ids.length = objs.length ∧
        ∀ u : List Byte,
          ids.map (fun id => FractalHeap.read ⟨h.blockSize, h.block ++ t ++ u⟩ id) =
            objs.map some := by
  induction objs with
  | nil =>
    intro h _
    exact ⟨[], [], by simp [FractalHeap.insertAll], rfl, rfl, fun _ => rfl⟩
  | cons obj objs ih =>
    intro h hfit
    simp only [totalBytes, List.map_cons, List.sum_cons] at hfit
    have hfit1 : h.block.length + obj.length ≤ h.blockSize := by omega
    obtain ⟨t, ids, hins, hlen, hids, hread⟩ := ih ⟨h.blockSize, h.block ++ obj⟩ (by
      simp only [List.length_append, totalBytes]
      omega)
    refine ⟨obj ++ t, ⟨h.block.length, obj.length⟩ :: ids, ?_, ?_, ?_, ?_⟩
    · simp only [FractalHeap.insertAll, FractalHeap.insert]
      rw [if_pos hfit1, bind_ok, hins, bind_ok, List.append_assoc]
      rfl
    · simp only [List.length_append, totalBytes, List.map_cons, List.sum_cons]
      simp only [totalBytes] at hlen
      omega
    · simp only [List.length_cons, hids]
    · intro u
      have hr := hread u
      simp only [List.map_cons]
      rw [← List.append_assoc h.block obj t]
      rw [hr]
      congr 1
      rw [List.append_assoc (h.block ++ obj) t u]
      exact FractalHeap.read_inserted h.blockSize h.block obj (t ++ u)

theorem FractalHeap.insertAll_error (objs : List (List Byte)) :
    ∀ h : FractalHeap, h.block.length ≤ h.blockSize →
      ¬ (h.block.length + totalBytes objs ≤ h.blockSize) →
      h.insertAll objs = .error .HeapGrowthUnsupported := by
  induction objs with
  | nil =>
    intro h hinv hfit
    exfalso
    apply hfit
    simp only [totalBytes, List.map_nil, List.sum_nil, Nat.add_zero]
    exact hinv
  | cons obj objs ih =>
    intro h hinv hfit
    simp only [totalBytes, List.map_cons, List.sum_cons] at hfit
    by_cases hfit1 : h.block.length + obj.length ≤ h.blockSize
    · have hrest := ih ⟨h.blockSize, h.block ++ obj⟩ (by
        simp only [List.length_append]
        exact hfit1) (by
        simp only [List.length_append, totalBytes]
        omega)
      simp only [FractalHeap.insertAll, FractalHeap.insert]
      rw [if_pos hfit1, bind_ok, hrest, bind_error]
    · simp only [FractalHeap.insertAll, FractalHeap.insert]
      rw [if_neg hfit1, bind_error]

theorem records_read (heap : FractalHeap) (attrs : AttrMap) :
    ∀ ids : List HeapId, attrs.length = ids.length →
      (List.zipWith (fun p id => BTreeRecord.mk (nameHash p.1) id) attrs ids).map
        (fun r => heap.read r.heapId) = ids.map (fun id => heap.read id) := by
  induction attrs with
  | nil =>
    intro ids h
    cases ids with
    | nil => rfl
    | cons id ids => simp at h
  | cons p ps ih =>
    intro ids h
    cases ids with
    | nil => simp at h
    | cons id ids =>
      simp only [List.length_cons, Nat.add_right_cancel_iff] at h
      simp only [List.zipWith_cons_cons, List.map_cons, ih ids h]

theorem checkHeaderMessages_ok (limits : WriteLimits) (lengths : List Nat)
    (h : ∀ n ∈ lengths, messageSize n ≤ limits.maxChunk0) :
    checkHeaderMessages limits lengths = .ok () := by
  unfold checkHeaderMessages
  rw [if_pos]
  rw [List.all_eq_true]
  intro n hn
  exact decide_eq_true (h n hn)

theorem checkHeaderMessages_error (limits : WriteLimits) (lengths : List Nat)
    (h : ¬ ∀ n ∈ lengths, messageSize n ≤ limits.maxChunk0) :
    checkHeaderMessages limits lengths = .error .HeaderOverflow := by
  unfold checkHeaderMessages
  rw [if_neg]
  intro hall
  apply h
  rw [List.all_eq_true] at hall
  intro n hn
  exact of_decide_eq_true (hall n hn)

theorem planAttributes_compact (limits : WriteLimits)
    (enc : GoString → AttrValue → List Byte) (attrs : AttrMap) (h : attrs.length ≤ 8) :
    planAttributes limits enc attrs =
      if ∀ p ∈ attrs, messageSize (enc p.1 p.2).length ≤ limits.maxChunk0 then
        .ok (.compact (attrs.map (fun p => enc p.1 p.2)))
      else .error .HeaderOverflow := by
  have hiff : (∀ n ∈ (attrs.map (fun p => enc p.1 p.2)).map List.length,
      messageSize n ≤ limits.maxChunk0) ↔
      ∀ p ∈ attrs, messageSize (enc p.1 p.2).length ≤ limits.maxChunk0 := by
    simp only [List.map_map, List.mem_map, Function.comp_apply, forall_exists_index, and_imp,
      forall_apply_eq_imp_iff₂]
  simp only [planAttributes, maxCompact]
  rw [if_pos h]
  by_cases hfit : ∀ p ∈ attrs, messageSize (enc p.1 p.2).length ≤ limits.maxChunk0
  · rw [if_pos hfit, checkHeaderMessages_ok limits _ (hiff.mpr hfit)]
    rfl
  · rw [if_neg hfit, checkHeaderMessages_error limits _ (fun hh => hfit (hiff.mp hh))]
    rfl

theorem chooseBlockSize_fits (limits : WriteLimits) (objs : List (List Byte)) :
    totalBytes objs ≤ chooseBlockSize limits objs ↔ totalBytes objs ≤ limits.maxDirectBlockSize := by
  unfold chooseBlockSize
  omega

theorem planAttributes_dense_heap_error (limits : WriteLimits)
    (enc : GoString → AttrValue → List Byte) (attrs : AttrMap) (h : 8 < attrs.length)
    (hheap : ¬ totalBytes (attrs.map (fun p => enc p.1 p.2)) ≤ limits.maxDirectBlockSize) :
    planAttributes limits enc attrs = .error .HeapGrowthUnsupported := by
  have herr := FractalHeap.insertAll_error (attrs.map (fun p => enc p.1 p.2))
    ⟨chooseBlockSize limits (attrs.map (fun p => enc p.1 p.2)), []⟩
    (by simp only [List.length_nil]; exact Nat.zero_le _) (by
      simp only [List.length_nil, Nat.zero_add]
      exact fun hh => hheap ((chooseBlockSize_fits limits _).mp hh))
  simp only [planAttributes, maxCompact]
  rw [if_neg (by omega), herr, bind_error]

theorem planAttributes_dense_run (limits : WriteLimits)
    (enc : GoString → AttrValue → List Byte) (attrs : AttrMap) (h : 8 < attrs.length)
    (hheap : totalBytes (attrs.map (fun p => enc p.1 p.2)) ≤ limits.maxDirectBlockSize) :
    ∃ (heap : FractalHeap) (ids : List HeapId),
      heap.block.length = totalBytes (attrs.map (fun p => enc p.1 p.2)) ∧
      heap.block.length ≤ heap.blockSize ∧
      heap.blockSize ≤ limits.maxDirectBlockSize ∧
      ids.length = attrs.length ∧
      ids.map (fun id => heap.read id) = (attrs.map (fun p => enc p.1 p.2)).map some ∧
      planAttributes limits enc attrs =
        if attrs.length ≤ leafCapacity limits then
          if messageSize attributeInfoLength ≤ limits.maxChunk0 then
            .ok (.dense heap
              ((List.zipWith (fun p id => BTreeRecord.mk (nameHash p.1) id) attrs
                ids).insertionSort BTreeRecord.le))
          else .error .HeaderOverflow
        else .error .TreeDepthUnsupported := by
  obtain ⟨t, ids, hins, hlen, hids, hread⟩ :=
    FractalHeap.insertAll_ok (attrs.map (fun p => enc p.1 p.2))
      ⟨chooseBlockSize limits (attrs.map (fun p => enc p.1 p.2)), []⟩ (by
        simp only [List.length_nil, Nat.zero_add]
        exact (chooseBlockSize_fits limits _).mpr hheap)
  simp only [List.nil_append] at hins hread
  rw [List.length_map] at hids
  refine ⟨⟨chooseBlockSize limits (attrs.map (fun p => enc p.1 p.2)), t⟩, ids, hlen, ?_, ?_,
    hids, ?_, ?_⟩
  · simp only [hlen]
    exact (chooseBlockSize_fits limits _).mpr hheap
  · exact Nat.min_le_right _ _
  · have hr := hread []
    simp only [List.append_nil] at hr
    exact hr
  · simp only [planAttributes, maxCompact]
    rw [if_neg (by omega), hins, bind_ok]
    simp only [buildLeaf, List.length_zipWith, hids, Nat.min_self]
    by_cases hleaf : attrs.length ≤ leafCapacity limits
    · rw [if_pos hleaf, if_pos hleaf, bind_ok]
      by_cases hinfo : messageSize attributeInfoLength ≤ limits.maxChunk0
      · rw [if_pos hinfo, checkHeaderMessages_ok limits _ (by simpa using hinfo)]
        rfl
      · rw [if_neg hinfo, checkHeaderMessages_error limits _ (by simpa using hinfo)]
        rfl
    · rw [if_neg hleaf, if_neg hleaf, bind_error]

/-! ## Counting the mix rounds -/

theorem blockStep_cons (b0 b1 b2 b3 b4 b5 b6 b7 b8 b9 b10 b11 b12 : Byte)
    (rest : List Byte) (a b c : Nat) :
    blockStep
      (b0 :: b1 :: b2 :: b3 :: b4 :: b5 :: b6 :: b7 :: b8 :: b9 :: b10 :: b11 :: b12 :: rest)
      a b c =
    .ok (b12 :: rest,
      (mixRound (add32 a (Reference.leWord b0 b1 b2 b3)) (add32 b (Reference.leWord b4 b5 b6 b7))
        (add32 c (Reference.leWord b8 b9 b10 b11))).1,
      (mixRound (add32 a (Reference.leWord b0 b1 b2 b3)) (add32 b (Reference.leWord b4 b5 b6 b7))
        (add32 c (Reference.leWord b8 b9 b10 b11))).2.1,
      (mixRound (add32 a (Reference.leWord b0 b1 b2 b3)) (add32 b (Reference.leWord b4 b5 b6 b7))
        (add32 c (Reference.leWord b8 b9 b10 b11))).2.2) := by
  unfold blockStep
  simp only [index_succ, index_zero, ok_bind, List.drop_succ_cons, List.drop_zero, pure_eq_ok]
  rw [orWord_eq b0.isLt b1.isLt b2.isLt b3.isLt, orWord_eq b4.isLt b5.isLt b6.isLt b7.isLt,
    orWord_eq b8.isLt b9.isLt b10.isLt b11.isLt]

theorem blockLoopRounds_step (fuel rounds : Nat)
    (b0 b1 b2 b3 b4 b5 b6 b7 b8 b9 b10 b11 b12 : Byte) (rest : List Byte) (a b c : Nat) :
    blockLoopRounds (fuel + 1) rounds
      (b0 :: b1 :: b2 :: b3 :: b4 :: b5 :: b6 :: b7 :: b8 :: b9 :: b10 :: b11 :: b12 :: rest)
      a b c =
    blockLoopRounds fuel (rounds + 1) (b12 :: rest)
      (mixRound (add32 a (Reference.leWord b0 b1 b2 b3)) (add32 b (Reference.leWord b4 b5 b6 b7))
        (add32 c (Reference.leWord b8 b9 b10 b11))).1
      (mixRound (add32 a (Reference.leWord b0 b1 b2 b3)) (add32 b (Reference.leWord b4 b5 b6 b7))
        (add32 c (Reference.leWord b8 b9 b10 b11))).2.1
      (mixRound (add32 a (Reference.leWord b0 b1 b2 b3)) (add32 b (Reference.leWord b4 b5 b6 b7))
        (add32 c (Reference.leWord b8 b9 b10 b11))).2.2 := by
  rw [blockLoopRounds]
  rw [if_pos (by simp)]
  rw [blockStep_cons, ok_bind]

theorem blockLoopRounds_exit (fuel rounds : Nat) (k : List Byte) (a b c : Nat)
    (h : k.length ≤ 12) :
    blockLoopRounds (fuel + 1) rounds k a b c = .ok (rounds, k, a, b, c) := by
  rw [blockLoopRounds]
  rw [if_neg (by omega)]

theorem blockLoop_eq_rounds : ∀ (fuel rounds : Nat) (k : List Byte) (a b c : Nat),
    blockLoop fuel k a b c = (blockLoopRounds fuel rounds k a b c).map Prod.snd := by
  intro fuel
  induction fuel with
  | zero => intro rounds k a b c; rfl
  | succ fuel ih =>
    intro rounds k a b c
    by_cases h : k.length > 12
    · obtain ⟨b0, b1, b2, b3, b4, b5, b6, b7, b8, b9, b10, b11, b12, rest, rfl⟩ :=
        thirteen_of_length h
      rw [blockLoop_step, blockLoopRounds_step]
      exact ih _ _ _ _ _
    · rw [blockLoop_exit fuel k a b c (by omega),
        blockLoopRounds_exit fuel rounds k a b c (by omega)]
      rfl

theorem blockLoopRounds_spec : ∀ (fuel rounds : Nat) (k : List Byte) (a b c : Nat),
    (k.length - 1) / 12 < fuel →
    ∃ a1 b1 c1, blockLoopRounds fuel rounds k a b c =
      .ok (rounds + (k.length - 1) / 12, k.drop (12 * ((k.length - 1) / 12)), a1, b1, c1) := by
  intro fuel
  induction fuel with
  | zero => intro rounds k a b c h; omega
  | succ fuel ih =>
    intro rounds k a b c hfuel
    by_cases h : k.length > 12
    · obtain ⟨b0, b1, b2, b3, b4, b5, b6, b7, b8, b9, b10, b11, b12, rest, rfl⟩ :=
        thirteen_of_length h
      rw [blockLoopRounds_step]
      simp only [List.length_cons] at hfuel h ⊢
      have hq : (rest.length + 1 + 1 + 1 + 1 + 1 + 1 + 1 + 1 + 1 + 1 + 1 + 1 + 1 - 1) / 12 =
          (rest.length + 1 - 1) / 12 + 1 := by omega
      obtain ⟨a1, b1, c1, hres⟩ := ih (rounds + 1) (b12 :: rest) _ _ _
        (by simp only [List.length_cons]; omega)
      refine ⟨a1, b1, c1, ?_⟩
      rw [hres, hq]
      simp only [List.length_cons, Nat.mul_add, Nat.mul_one]
      rw [Nat.add_comm (12 * ((rest.length + 1 - 1) / 12)) 12]
      simp only [List.drop_succ_cons, Nat.add_assoc, ← List.drop_drop]
      rw [List.drop_zero, Nat.add_comm 1 ((rest.length + 1 - 1) / 12)]
    · rw [blockLoopRounds_exit fuel rounds k a b c (by omega)]
      have hq : (k.length - 1) / 12 = 0 := by omega
      exact ⟨a, b, c, by rw [hq]; rfl⟩

theorem loop_exit (fuel rounds : Nat) (k : List Byte) (a b c : Nat) (hk : k ≠ [])
    (hfuel : k.length ≤ fuel) (ha : a < 2 ^ 32) (hb : b < 2 ^ 32) (hc : c < 2 ^ 32) :
    ∃ k1 a1 b1 c1,
      blockLoopRounds fuel rounds k a b c = .ok (rounds + (k.length - 1) / 12, k1, a1, b1, c1) ∧
      blockLoop fuel k a b c = .ok (k1, a1, b1, c1) ∧
      k1 = k.drop (12 * ((k.length - 1) / 12)) ∧
      k1.length = (k.length - 1) % 12 + 1 ∧
      a1 < 2 ^ 32 ∧ b1 < 2 ^ 32 ∧ c1 < 2 ^ 32 ∧
      Reference.blocks k a b c = Reference.blocks k1 a1 b1 c1 := by
  have hpos : 0 < k.length := List.length_pos.mpr hk
  obtain ⟨k1, a1, b1, c1, hloop, -, -, ha1, hb1, hc1, href⟩ :=
    blockLoop_spec fuel k a b c hk hfuel ha hb hc
  obtain ⟨a2, b2, c2, hrounds⟩ := blockLoopRounds_spec fuel rounds k a b c (by omega)
  have heq := blockLoop_eq_rounds fuel rounds k a b c
  rw [hloop, hrounds] at heq
  have hinj := Except.ok.inj heq
  simp only [Prod.mk.injEq] at hinj
  obtain ⟨hk1, ha2, hb2, hc2⟩ := hinj
  subst ha2 hb2 hc2
  refine ⟨k1, a1, b1, c1, ?_, hloop, hk1, ?_, ha1, hb1, hc1, href⟩
  · rw [hrounds, hk1]
  · rw [hk1, List.length_drop]
    omega

theorem JenkinsLookup3_forget_rounds (data : List Byte) (initval : Nat) :
    JenkinsLookup3 data initval = (JenkinsLookup3Rounds data initval).map Prod.snd := by
  by_cases h : data = []
  · subst h
    rfl
  · have h0 : ¬ data.length = 0 := fun e => h (List.length_eq_zero.mp e)
    obtain ⟨k1, a1, b1, c1, hrounds, hloop, -, hlen, ha1, hb1, hc1, -⟩ :=
      loop_exit data.length 0 data _ _ _ h (Nat.le_refl _)
        (add32_lt (add32 0xdeadbeef (data.length % 2 ^ 32)) initval)
        (add32_lt (add32 0xdeadbeef (data.length % 2 ^ 32)) initval)
        (add32_lt (add32 0xdeadbeef (data.length % 2 ^ 32)) initval)
    have hk1 : k1 ≠ [] := by
      intro e
      rw [e] at hlen
      simp at hlen
    simp only [JenkinsLookup3, JenkinsLookup3Rounds]
    rw [if_neg h0, if_neg h0, hloop, hrounds, ok_bind, ok_bind,
      lastBlock_eq k1 a1 b1 c1 hk1 (by omega) ha1 hb1 hc1, ok_bind]
    rfl

theorem JenkinsLookup3Rounds_eq (data : List Byte) (initval : Nat) (h : data ≠ []) :
    JenkinsLookup3Rounds data initval =
      .ok ((data.length - 1) / 12, Reference.hashlittle data initval) := by
  have h1 := JenkinsLookup3_eq_hashlittle data initval h
  have h0 : ¬ data.length = 0 := fun e => h (List.length_eq_zero.mp e)
  obtain ⟨k1, a1, b1, c1, hrounds, hloop, -, hlen, ha1, hb1, hc1, -⟩ :=
    loop_exit data.length 0 data _ _ _ h (Nat.le_refl _)
      (add32_lt (add32 0xdeadbeef (data.length % 2 ^ 32)) initval)
      (add32_lt (add32 0xdeadbeef (data.length % 2 ^ 32)) initval)
      (add32_lt (add32 0xdeadbeef (data.length % 2 ^ 32)) initval)
  have hk1 : k1 ≠ [] := by
    intro e
    rw [e] at hlen
    simp at hlen
  simp only [JenkinsLookup3] at h1
  rw [if_neg h0, hloop, ok_bind] at h1
  simp only [JenkinsLookup3Rounds]
  rw [if_neg h0, hrounds, ok_bind, h1, ok_bind, Nat.zero_add]
  rfl

theorem hashlittle_short (data : List Byte) (initval : Nat) (h : data ≠ [])
    (h12 : data.length ≤ 12) :
    Reference.hashlittle data initval =
      finalMix (add32 (initialState data.length initval) (Reference.wordAt data 0))
        (add32 (initialState data.length initval) (Reference.wordAt data 4))
        (add32 (initialState data.length initval) (Reference.wordAt data 8)) := by
  simp only [Reference.hashlittle, initialState]
  exact blocks_short data _ _ _ h h12

theorem blockStep_shortens (k : List Byte) (a b c : Nat) (h : k.length > 12) :
    ∃ a1 b1 c1, blockStep k a b c = .ok (k.drop 12, a1, b1, c1) ∧
      (k.drop 12).length + 12 = k.length := by
  obtain ⟨b0, b1, b2, b3, b4, b5, b6, b7, b8, b9, b10, b11, b12, rest, rfl⟩ :=
    thirteen_of_length h
  refine ⟨_, _, _, blockStep_cons b0 b1 b2 b3 b4 b5 b6 b7 b8 b9 b10 b11 b12 rest a b c, ?_⟩
  simp only [List.drop_succ_cons, List.drop_zero, List.length_cons]

/-! ## A trailing zero byte against the seed -/

theorem padByte_append_zero (d : List Byte) (i : Nat) :
    Reference.padByte (d ++ [0]) i = Reference.padByte d i := by
  simp only [Reference.padByte, List.getD_eq_getElem?_getD]
  by_cases h : i < d.length
  · rw [List.getElem?_append_left h]
  · rw [List.getElem?_append_right (by omega), List.getElem?_eq_none (l := d) (by omega)]
    by_cases h0 : i - d.length = 0
    · rw [h0]; rfl
    · rw [List.getElem?_eq_none (by simp; omega)]

theorem wordAt_append_zero (d : List Byte) (i : Nat) :
    Reference.wordAt (d ++ [0]) i = Reference.wordAt d i := by
  simp only [Reference.wordAt, padByte_append_zero]

theorem blocks_append_zero : ∀ (n : Nat) (d : List Byte) (a b c : Nat),
    d.length ≤ n → d.length % 12 ≠ 0 →
    Reference.blocks (d ++ [0]) a b c = Reference.blocks d a b c := by
  intro n
  induction n with
  | zero =>
    intro d a b c hn hmod
    have : d.length = 0 := by omega
    rw [this] at hmod
    exact absurd rfl hmod
  | succ n ih =>
    intro d a b c hn hmod
    by_cases h : d.length > 12
    · obtain ⟨b0, b1, b2, b3, b4, b5, b6, b7, b8, b9, b10, b11, b12, rest, rfl⟩ :=
        thirteen_of_length h
      simp only [List.cons_append]
      rw [blocks_step, blocks_step]
      rw [← List.cons_append]
      apply ih
      · simp only [List.length_cons] at hn ⊢
        omega
      · simp only [List.length_cons] at hmod ⊢
        omega
    · have hne : d ≠ [] := by
        intro e
        rw [e] at hmod
        exact hmod rfl
      have hlen : (d ++ [0]).length ≤ 12 := by
        simp only [List.length_append, List.length_cons, List.length_nil]
        omega
      rw [blocks_short (d ++ [0]) a b c (by simp) hlen, blocks_short d a b c hne (by omega)]
      simp only [wordAt_append_zero]

/-! ## The mix round is invertible -/

theorem mixRound_eq_lines (a b c : Nat) :
    mixRound a b c =
      ((mixLine 4 28 (mixLine 19 13 (mixLine 16 16 (mixLine 8 24 (mixLine 6 26
        (mixLine 4 28 (a, c, b))))))).1,
       (mixLine 4 28 (mixLine 19 13 (mixLine 16 16 (mixLine 8 24 (mixLine 6 26
        (mixLine 4 28 (a, c, b))))))).2.2,
       (mixLine 4 28 (mixLine 19 13 (mixLine 16 16 (mixLine 8 24 (mixLine 6 26
        (mixLine 4 28 (a, c, b))))))).2.1) := by
  simp only [mixRound, mixLine]

theorem unmixRound_eq_lines (a b c : Nat) :
    unmixRound a b c =
      ((unmixLine 4 28 (unmixLine 6 26 (unmixLine 8 24 (unmixLine 16 16 (unmixLine 19 13
        (unmixLine 4 28 (a, c, b))))))).1,
       (unmixLine 4 28 (unmixLine 6 26 (unmixLine 8 24 (unmixLine 16 16 (unmixLine 19 13
        (unmixLine 4 28 (a, c, b))))))).2.2,
       (unmixLine 4 28 (unmixLine 6 26 (unmixLine 8 24 (unmixLine 16 16 (unmixLine 19 13
        (unmixLine 4 28 (a, c, b))))))).2.1) := by
  simp only [unmixRound, unmixLine]

theorem sub32_add32_cancel {x : Nat} (y : Nat) (hx : x < 2 ^ 32) :
    sub32 (add32 x y) y = x := by
  simp only [sub32, add32]
  omega

theorem add32_sub32_cancel {x : Nat} (y : Nat) (hx : x < 2 ^ 32) :
    add32 (sub32 x y) y = x := by
  simp only [sub32, add32]
  omega

theorem mixLine_mem (s t : Nat) (p : Nat × Nat × Nat) (hp : p ∈ Word32x3) :
    mixLine s t p ∈ Word32x3 :=
  ⟨hp.2.2, xorRot_lt s t (sub32_lt _ _) hp.2.1, add32_lt _ _⟩

theorem unmixLine_mem (s t : Nat) (p : Nat × Nat × Nat) (hp : p ∈ Word32x3) :
    unmixLine s t p ∈ Word32x3 :=
  ⟨add32_lt _ _, sub32_lt _ _, hp.1⟩

theorem unmixLine_mixLine (s t : Nat) (p : Nat × Nat × Nat) (hp : p ∈ Word32x3) :
    unmixLine s t (mixLine s t p) = p := by
  obtain ⟨x, y, z⟩ := p
  obtain ⟨hx, hy, -⟩ := hp
  simp only [unmixLine, mixLine]
  simp only [sub32_add32_cancel z hy, Nat.xor_cancel_right, add32_sub32_cancel y hx]

theorem mixLine_unmixLine (s t : Nat) (p : Nat × Nat × Nat) (hp : p ∈ Word32x3) :
    mixLine s t (unmixLine s t p) = p := by
  obtain ⟨z, x, y⟩ := p
  obtain ⟨-, hx, hy⟩ := hp
  simp only [unmixLine, mixLine]
  have hxr : x ^^^ (shl32 (sub32 y z) s ||| shr32 (sub32 y z) t) < 2 ^ 32 :=
    xorRot_lt s t hx (sub32_lt _ _)
  simp only [sub32_add32_cancel (sub32 y z) hxr, Nat.xor_cancel_right,
    add32_sub32_cancel z hy]

theorem mixRound_mem (p : Nat × Nat × Nat) (hp : p ∈ Word32x3) :
    mixRound p.1 p.2.1 p.2.2 ∈ Word32x3 := by
  have h0 : (p.1, p.2.2, p.2.1) ∈ Word32x3 := ⟨hp.1, hp.2.2, hp.2.1⟩
  have h := mixLine_mem 4 28 _ (mixLine_mem 19 13 _ (mixLine_mem 16 16 _
    (mixLine_mem 8 24 _ (mixLine_mem 6 26 _ (mixLine_mem 4 28 _ h0)))))
  rw [mixRound_eq_lines]
  exact ⟨h.1, h.2.2, h.2.1⟩

theorem unmixRound_mem (p : Nat × Nat × Nat) (hp : p ∈ Word32x3) :
    unmixRound p.1 p.2.1 p.2.2 ∈ Word32x3 := by
  have h0 : (p.1, p.2.2, p.2.1) ∈ Word32x3 := ⟨hp.1, hp.2.2, hp.2.1⟩
  have h := unmixLine_mem 4 28 _ (unmixLine_mem 6 26 _ (unmixLine_mem 8 24 _
    (unmixLine_mem 16 16 _ (unmixLine_mem 19 13 _ (unmixLine_mem 4 28 _ h0)))))
  rw [unmixRound_eq_lines]
  exact ⟨h.1, h.2.2, h.2.1⟩

theorem unmixRound_mixRound (p : Nat × Nat × Nat) (hp : p ∈ Word32x3) :
    unmixRound (mixRound p.1 p.2.1 p.2.2).1 (mixRound p.1 p.2.1 p.2.2).2.1
      (mixRound p.1 p.2.1 p.2.2).2.2 = p := by
  have h0 : (p.1, p.2.2, p.2.1) ∈ Word32x3 := ⟨hp.1, hp.2.2, hp.2.1⟩
  have h1 := mixLine_mem 4 28 _ h0
  have h2 := mixLine_mem 6 26 _ h1
  have h3 := mixLine_mem 8 24 _ h2
  have h4 := mixLine_mem 16 16 _ h3
  have h5 := mixLine_mem 19 13 _ h4
  rw [mixRound_eq_lines, unmixRound_eq_lines]
  simp only [Prod.mk.eta]
  rw [unmixLine_mixLine 4 28 _ h5, unmixLine_mixLine 19 13 _ h4, unmixLine_mixLine 16 16 _ h3,
    unmixLine_mixLine 8 24 _ h2, unmixLine_mixLine 6 26 _ h1, unmixLine_mixLine 4 28 _ h0]

theorem mixRound_unmixRound (p : Nat × Nat × Nat) (hp : p ∈ Word32x3) :
    mixRound (unmixRound p.1 p.2.1 p.2.2).1 (unmixRound p.1 p.2.1 p.2.2).2.1
      (unmixRound p.1 p.2.1 p.2.2).2.2 = p := by
  have h0 : (p.1, p.2.2, p.2.1) ∈ Word32x3 := ⟨hp.1, hp.2.2, hp.2.1⟩
  have h1 := unmixLine_mem 4 28 _ h0
  have h2 := unmixLine_mem 19 13 _ h1
  have h3 := unmixLine_mem 16 16 _ h2
  have h4 := unmixLine_mem 8 24 _ h3
  have h5 := unmixLine_mem 6 26 _ h4
  rw [unmixRound_eq_lines, mixRound_eq_lines]
  simp only [Prod.mk.eta]
  rw [mixLine_unmixLine 4 28 _ h5, mixLine_unmixLine 6 26 _ h4, mixLine_unmixLine 8 24 _ h3,
    mixLine_unmixLine 16 16 _ h2, mixLine_unmixLine 19 13 _ h1, mixLine_unmixLine 4 28 _ h0]

theorem rotation_testBit (x s i : Nat) (hx : x < 2 ^ 32) (hs : s ≤ 32) (hi : i < 32) :
    (shl32 x s ||| shr32 x (32 - s)).testBit i = x.testBit ((i + (32 - s)) % 32) := by
  simp only [shl32, shr32, Nat.testBit_or, Nat.testBit_mod_two_pow, Nat.testBit_shiftLeft,
    Nat.testBit_shiftRight, hi, decide_True, Bool.true_and]
  by_cases h : s ≤ i
  · have hhigh : x.testBit (32 - s + i) = false :=
      Nat.testBit_lt_two_pow (lt_of_lt_of_le hx (Nat.pow_le_pow_right (by decide) (by omega)))
    have hidx : (i + (32 - s)) % 32 = i - s := by omega
    simp [h, hhigh, hidx]
  · have hidx : (i + (32 - s)) % 32 = 32 - s + i := by omega
    simp [h, hidx]

/-! ## The call depends on the bytes of the slice only -/

theorem Slice.bytes_length (mem : List Byte) (k : Slice) (h : k.Valid mem) :
    (k.bytes mem).length = k.len := by
  unfold Slice.Valid at h
  simp only [Slice.bytes, List.length_take, List.length_drop]
  omega

theorem Slice.index_eq (mem : List Byte) (k : Slice) (i : Nat) :
    k.index mem i = HDF5.index (k.bytes mem) i := by
  unfold Slice.index HDF5.index Slice.bytes
  by_cases h : i < k.len
  · rw [if_pos h, List.getElem?_take_of_lt h, List.getElem?_drop]
  · rw [if_neg h, List.getElem?_eq_none (by simp only [List.length_take]; omega)]

theorem Slice.bytes_from12 (mem : List Byte) (k : Slice) :
    k.from12.bytes mem = (k.bytes mem).drop 12 := by
  simp only [Slice.bytes, Slice.from12, List.drop_take, List.drop_drop]

theorem Slice.valid_from12 (mem : List Byte) (k : Slice) (h : k.Valid mem) (h12 : 12 < k.len) :
    k.from12.Valid mem := by
  unfold Slice.Valid at h ⊢
  simp only [Slice.from12]
  omega

theorem InMemory.loop_step_on_slice (fuel : Nat) (mem : List Byte) (k : Slice) (a b c : Nat)
    (b0 b1 b2 b3 b4 b5 b6 b7 b8 b9 b10 b11 b12 : Byte) (rest : List Byte)
    (hlen : 12 < k.len)
    (hb : k.bytes mem =
      b0 :: b1 :: b2 :: b3 :: b4 :: b5 :: b6 :: b7 :: b8 :: b9 :: b10 :: b11 :: b12 :: rest) :
    InMemory.blockLoop (fuel + 1) mem k a b c =
    InMemory.blockLoop fuel mem k.from12
      (mixRound (add32 a (Reference.leWord b0 b1 b2 b3)) (add32 b (Reference.leWord b4 b5 b6 b7))
        (add32 c (Reference.leWord b8 b9 b10 b11))).1
      (mixRound (add32 a (Reference.leWord b0 b1 b2 b3)) (add32 b (Reference.leWord b4 b5 b6 b7))
        (add32 c (Reference.leWord b8 b9 b10 b11))).2.1
      (mixRound (add32 a (Reference.leWord b0 b1 b2 b3)) (add32 b (Reference.leWord b4 b5 b6 b7))
        (add32 c (Reference.leWord b8 b9 b10 b11))).2.2 := by
  rw [InMemory.blockLoop]
  rw [if_pos hlen]
  simp only [Slice.index_eq, hb, index_succ, index_zero, ok_bind]
  rw [orWord_eq b0.isLt b1.isLt b2.isLt b3.isLt, orWord_eq b4.isLt b5.isLt b6.isLt b7.isLt,
    orWord_eq b8.isLt b9.isLt b10.isLt b11.isLt]

theorem InMemory.loop_exit_on_slice (fuel : Nat) (mem : List Byte) (k : Slice) (a b c : Nat)
    (h : k.len ≤ 12) :
    InMemory.blockLoop (fuel + 1) mem k a b c = .ok (k, a, b, c) := by
  rw [InMemory.blockLoop]
  rw [if_neg (by omega)]

theorem InMemory.loop_on_slice_eq : ∀ (fuel : Nat) (mem : List Byte) (k : Slice) (a b c : Nat)
    (k1 : List Byte) (a1 b1 c1 : Nat), k.Valid mem →
    HDF5.blockLoop fuel (k.bytes mem) a b c = .ok (k1, a1, b1, c1) →
    ∃ k2 : Slice, InMemory.blockLoop fuel mem k a b c = .ok (k2, a1, b1, c1) ∧
      k2.Valid mem ∧ k2.bytes mem = k1 := by
  intro fuel
  induction fuel with
  | zero =>
    intro mem k a b c k1 a1 b1 c1 _ h
    cases h
  | succ fuel ih =>
    intro mem k a b c k1 a1 b1 c1 hv h
    have hl := Slice.bytes_length mem k hv
    by_cases h12 : 12 < k.len
    · obtain ⟨b0, b1, b2, b3, b4, b5, b6, b7, b8, b9, b10, b11, b12, rest, hb⟩ :=
        thirteen_of_length (k := k.bytes mem) (by omega)
      rw [hb, HDF5.blockLoop_step] at h
      rw [InMemory.loop_step_on_slice fuel mem k a b c b0 b1 b2 b3 b4 b5 b6 b7 b8 b9 b10 b11 b12
        rest h12 hb]
      apply ih mem k.from12 _ _ _ k1 _ _ _ (Slice.valid_from12 mem k hv h12)
      rw [Slice.bytes_from12, hb]
      exact h
    · rw [HDF5.blockLoop_exit fuel _ a b c (by omega)] at h
      have hinj := Except.ok.inj h
      simp only [Prod.mk.injEq] at hinj
      obtain ⟨hk, ha, hb, hc⟩ := hinj
      subst ha hb hc
      exact ⟨k, InMemory.loop_exit_on_slice fuel mem k a b c (by omega), hv, hk⟩

theorem InMemory.arm_on_slice_eq (mem : List Byte) (n label : Nat) (k : Slice) (i s x : Nat) :
    InMemory.fallInto mem n label k i s x = HDF5.fallInto n label (k.bytes mem) i s x := by
  unfold InMemory.fallInto HDF5.fallInto
  rw [Slice.index_eq]

theorem InMemory.tail_on_slice_eq (mem : List Byte) (k : Slice) (a b c : Nat) (h : k.Valid mem) :
    InMemory.lastBlock mem k a b c = HDF5.lastBlock (k.bytes mem) a b c := by
  unfold InMemory.lastBlock HDF5.lastBlock
  simp only [InMemory.arm_on_slice_eq, Slice.bytes_length mem k h]

theorem InMemory.call_on_slice_eq (mem : List Byte) (data : Slice) (initval : Nat)
    (h : data.Valid mem) :
    ∃ v, HDF5.JenkinsLookup3 (data.bytes mem) initval = .ok v ∧
      InMemory.JenkinsLookup3 mem data initval = .ok (v, mem) := by
  have hl := Slice.bytes_length mem data h
  by_cases h0 : data.len = 0
  · refine ⟨0, ?_, ?_⟩
    · simp only [HDF5.JenkinsLookup3, hl]
      rw [if_pos h0]
    · simp only [InMemory.JenkinsLookup3]
      rw [if_pos h0]
  · have hne : data.bytes mem ≠ [] := by
      intro e
      rw [e] at hl
      exact h0 hl.symm
    obtain ⟨k1, a1, b1, c1, hloop, hk1, hn1, ha1, hb1, hc1, -⟩ :=
      blockLoop_spec (data.bytes mem).length (data.bytes mem)
        (add32 (add32 0xdeadbeef ((data.bytes mem).length % 2 ^ 32)) initval)
        (add32 (add32 0xdeadbeef ((data.bytes mem).length % 2 ^ 32)) initval)
        (add32 (add32 0xdeadbeef ((data.bytes mem).length % 2 ^ 32)) initval)
        hne (Nat.le_refl _) (add32_lt _ _) (add32_lt _ _) (add32_lt _ _)
    obtain ⟨k2, hmem, hv2, hb2⟩ := InMemory.loop_on_slice_eq _ mem data _ _ _ k1 a1 b1 c1 h hloop
    obtain ⟨v, hv⟩ : ∃ v, HDF5.lastBlock k1 a1 b1 c1 = .ok v :=
      ⟨_, HDF5.lastBlock_eq k1 a1 b1 c1 hk1 hn1 ha1 hb1 hc1⟩
    rw [hl] at hmem
    refine ⟨v, ?_, ?_⟩
    · simp only [HDF5.JenkinsLookup3]
      rw [if_neg (by omega), hloop, ok_bind]
      exact hv
    · simp only [InMemory.JenkinsLookup3]
      rw [if_neg h0, hmem, ok_bind, InMemory.tail_on_slice_eq mem k2 a1 b1 c1 hv2, hb2, hv, ok_bind]
      rfl

/-! # Claims -/

/-! ## The checksum: claims on `JenkinsLookup3` and `JenkinsChecksum` -/

/-- C1. For every non-empty byte sequence and every seed, `JenkinsLookup3` returns the
value of the lookup3 `hashlittle` reference: initial state `0xdeadbeef + len + initval`
modulo `2 ^ 32`, one mix round per twelve bytes while more than twelve remain, the last
one to twelve bytes added as three zero-padded little-endian words, the final mix, and
the result `c`. -/
theorem JenkinsLookup3_refines_hashlittle (data : List Byte) (initval : Nat)
    (h : data ≠ []) :
    JenkinsLookup3 data initval = .ok (Reference.hashlittle data initval) :=
  JenkinsLookup3_eq_hashlittle data initval h

/-- Witness for C1: the one-byte key `[0x61]` with seed 7. -/
theorem JenkinsLookup3_refines_hashlittle_witness :
    ([0x61] : List Byte) ≠ [] ∧
      JenkinsLookup3 [0x61] 7 = .ok (Reference.hashlittle [0x61] 7) :=
  ⟨by decide, JenkinsLookup3_refines_hashlittle [0x61] 7 (by decide)⟩

/-- C2. For every seed, `JenkinsLookup3` of the empty byte sequence returns 0. -/
theorem JenkinsLookup3_empty (initval : Nat) : JenkinsLookup3 [] initval = .ok 0 :=
  JenkinsLookup3_nil initval

/-- C3. On the thirty ASCII bytes of "Four score and seven years ago" `JenkinsLookup3`
returns `0x17770551` with seed 0 and `0xcd628161` with seed 1, the self-test vectors
published with lookup3.c. -/
theorem JenkinsLookup3_known_vectors :
    ascii ("Four score and seven years ago") =
        [0x46, 0x6f, 0x75, 0x72, 0x20, 0x73, 0x63, 0x6f, 0x72, 0x65, 0x20, 0x61, 0x6e, 0x64,
          0x20, 0x73, 0x65, 0x76, 0x65, 0x6e, 0x20, 0x79, 0x65, 0x61, 0x72, 0x73, 0x20, 0x61,
          0x67, 0x6f] ∧
      (ascii ("Four score and seven years ago")).length = 30 ∧
      JenkinsLookup3 (ascii ("Four score and seven years ago")) 0 = .ok 0x17770551 ∧
      JenkinsLookup3 (ascii ("Four score and seven years ago")) 1 = .ok 0xcd628161 :=
  ⟨by decide, rfl, rfl, rfl⟩

/-- C4. For every byte sequence and every seed, `JenkinsLookup3` and `JenkinsChecksum`
return a 32-bit value: no slice access of the block loop or of the tail switch is out
of range (and the loop bound is never exhausted), so neither function panics. -/
theorem JenkinsLookup3_never_panics (data : List Byte) (initval : Nat) :
    (∃ v, JenkinsLookup3 data initval = .ok v ∧ v < 2 ^ 32) ∧
      (∃ v, JenkinsChecksum data = .ok v ∧ v < 2 ^ 32) :=
  ⟨JenkinsLookup3_total data initval, JenkinsLookup3_total data 0⟩

/-! ## Claims on checksum trailers -/

/-- C5. A checksum-protected metadata block verifies against the checksum function.
The comparison of the superblock test accepts a 48-byte superblock exactly when it
satisfies the trailer invariant of the format with the lookup3 reference as checksum
(bytes 44..48 are the little-endian u32 of `hashlittle` over bytes 0..44), so every
superblock written by the reference implementation passes; the same holds of the
trailer check on any block.  Every block closed by the end-block helper, the emitted
superblock included, satisfies that invariant and passes the check:
`JenkinsLookup3(block without its last 4 bytes, 0) = u32_le(last 4 bytes)`. -/
theorem checksum_trailer_verifies :
    (∀ buf : List Byte, buf.length = 48 →
      superblockChecksumMatches buf = .ok (decide (trailerValid buf))) ∧
    (∀ block : List Byte, 4 < block.length →
      blockChecksumMatches block = .ok (decide (trailerValid block))) ∧
    (∀ (version : Byte) (eofAddress rootAddress : Nat),
      ∃ sb, encodeSuperblock version eofAddress rootAddress = .ok sb ∧ sb.length = 48 ∧
        trailerValid sb ∧ superblockChecksumMatches sb = .ok true) ∧
    (∀ body : List Byte, body ≠ [] →
      ∃ block, endBlock body = .ok block ∧ block.length = body.length + 4 ∧
        trailerValid block ∧ blockChecksumMatches block = .ok true) ∧
    (∀ body : List Byte,
      ∃ block v, endBlock body = .ok block ∧ block.length = body.length + 4 ∧
        JenkinsLookup3 (block.take (block.length - 4)) 0 = .ok v ∧
        Uint32 (block.drop (block.length - 4)) = .ok v) := by
  refine ⟨superblockChecksumMatches_eq, blockChecksumMatches_eq, ?_, ?_, ?_⟩
  · intro version eofAddress rootAddress
    have hlen := superblockFields_length version eofAddress rootAddress
    have hne : superblockFields version eofAddress rootAddress ≠ [] := by
      intro e
      rw [e] at hlen
      simp at hlen
    obtain ⟨sb, hsb, hl, hvalid⟩ := endBlock_trailerValid _ hne
    rw [hlen] at hl
    refine ⟨sb, hsb, hl, hvalid, ?_⟩
    rw [superblockChecksumMatches_eq sb hl]
    congr 1
    exact decide_eq_true hvalid
  · intro body hne
    obtain ⟨block, hb, hl, hvalid⟩ := endBlock_trailerValid body hne
    refine ⟨block, hb, hl, hvalid, ?_⟩
    rw [blockChecksumMatches_eq block hvalid.1]
    congr 1
    exact decide_eq_true hvalid
  · intro body
    obtain ⟨v, hv, hlt, hb⟩ := endBlock_eq body
    refine ⟨_, v, hb, by simp [putLE_length], ?_, ?_⟩
    · simpa [putLE_length] using hv
    · simpa [putLE_length] using Uint32_putLE v hlt

/-! ## Claims on the root-attribute write path -/

/-- C6. On a fresh-file write of `n` root attributes the storage mode is dense if and
only if `n > 8`: a write that succeeds stores up to eight attributes as inline attribute
messages in caller order and nine or more through the fractal heap and the B-tree leaf
(one record each, within the block and the leaf), and in both modes exactly the `n`
encoded attributes are read back.  The write succeeds exactly within the regime of
sections 4.8 and 9; outside it it fails with `HeaderOverflow`, `HeapGrowthUnsupported`
or `TreeDepthUnsupported` and stores nothing, as for more than 65535 attributes. -/
theorem storage_mode_dense_iff_more_than_eight (limits : WriteLimits)
    (enc : GoString → AttrValue → List Byte) (attrs : AttrMap) :
    ((∃ storage, planAttributes limits enc attrs = .ok storage) ↔
      withinRegime limits enc attrs) ∧
    (∀ storage, planAttributes limits enc attrs = .ok storage →
      (storage.isDense = true ↔ attrs.length > 8) ∧
      (attrs.length ≤ 8 → storage = .compact (attrs.map (fun p => enc p.1 p.2))) ∧
      (attrs.length ≥ 9 →
        ∃ heap leaf, storage = .dense heap leaf ∧ leaf.length = attrs.length ∧
          leaf.length ≤ leafCapacity limits ∧
          heap.block.length = totalBytes (attrs.map (fun p => enc p.1 p.2)) ∧
          heap.block.length ≤ heap.blockSize ∧
          heap.blockSize ≤ limits.maxDirectBlockSize) ∧
      storage.readBack.length = attrs.length ∧
      List.Perm storage.readBack ((attrs.map (fun p => enc p.1 p.2)).map some)) ∧
    (∀ e, planAttributes limits enc attrs = .error e →
      (attrs.length ≤ 8 → e = .HeaderOverflow) ∧
      (e = .HeaderOverflow ∨ e = .HeapGrowthUnsupported ∨ e = .TreeDepthUnsupported)) ∧
    (65535 < attrs.length → ∃ e, planAttributes limits enc attrs = .error e) := by
  by_cases h8 : attrs.length ≤ 8
  · have hplan := planAttributes_compact limits enc attrs h8
    have hreg : withinRegime limits enc attrs ↔
        ∀ p ∈ attrs, messageSize (enc p.1 p.2).length ≤ limits.maxChunk0 := by
      unfold withinRegime maxCompact
      rw [if_pos h8]
    by_cases hfit : ∀ p ∈ attrs, messageSize (enc p.1 p.2).length ≤ limits.maxChunk0
    · rw [if_pos hfit] at hplan
      refine ⟨⟨fun _ => hreg.mpr hfit, fun _ => ⟨_, hplan⟩⟩, ?_, ?_, ?_⟩
      · intro storage hs
        rw [hplan] at hs
        have hst := Except.ok.inj hs
        subst hst
        refine ⟨?_, fun _ => rfl, fun h9 => by omega, ?_, List.Perm.refl _⟩
        · simp only [AttributeStorage.isDense]
          constructor
          · intro hf; cases hf
          · intro hgt; omega
        · simp only [AttributeStorage.readBack, List.length_map]
      · intro e he
        rw [hplan] at he
        cases he
      · intro hbig
        omega
    · rw [if_neg hfit] at hplan
      refine ⟨⟨fun ⟨s, hs⟩ => (by rw [hplan] at hs; cases hs),
        fun hr => absurd (hreg.mp hr) hfit⟩, ?_, ?_, ?_⟩
      · intro storage hs
        rw [hplan] at hs
        cases hs
      · intro e he
        rw [hplan] at he
        have hee := Except.error.inj he
        exact ⟨fun _ => hee.symm, Or.inl hee.symm⟩
      · intro hbig
        omega
  · have h9 : 8 < attrs.length := by omega
    have hreg : withinRegime limits enc attrs ↔
        (totalBytes (attrs.map (fun p => enc p.1 p.2)) ≤ limits.maxDirectBlockSize ∧
          attrs.length ≤ leafCapacity limits ∧
          messageSize attributeInfoLength ≤ limits.maxChunk0) := by
      unfold withinRegime maxCompact
      rw [if_neg h8]
    have hcap : leafCapacity limits ≤ 65535 := Nat.min_le_right _ _
    by_cases hheap : totalBytes (attrs.map (fun p => enc p.1 p.2)) ≤ limits.maxDirectBlockSize
    · obtain ⟨heap, ids, hblock, hinv, hmax, hids, hread, hplan⟩ :=
        planAttributes_dense_run limits enc attrs h9 hheap
      by_cases hleaf : attrs.length ≤ leafCapacity limits
      · rw [if_pos hleaf] at hplan
        by_cases hinfo : messageSize attributeInfoLength ≤ limits.maxChunk0
        · rw [if_pos hinfo] at hplan
          refine ⟨⟨fun _ => hreg.mpr ⟨hheap, hleaf, hinfo⟩, fun _ => ⟨_, hplan⟩⟩, ?_, ?_, ?_⟩
          · intro storage hs
            rw [hplan] at hs
            have hst := Except.ok.inj hs
            subst hst
            have hlen : ((List.zipWith (fun p id => BTreeRecord.mk (nameHash p.1) id) attrs
                ids).insertionSort BTreeRecord.le).length = attrs.length := by
              rw [List.length_insertionSort, List.length_zipWith, hids, Nat.min_self]
            have hperm : List.Perm
                (AttributeStorage.dense heap
                  ((List.zipWith (fun p id => BTreeRecord.mk (nameHash p.1) id) attrs
                    ids).insertionSort BTreeRecord.le)).readBack
                ((attrs.map (fun p => enc p.1 p.2)).map some) := by
              simp only [AttributeStorage.readBack]
              refine ((List.perm_insertionSort BTreeRecord.le _).map _).trans ?_
              rw [records_read heap attrs ids hids.symm, hread]
            refine ⟨?_, fun h => by omega, fun _ => ⟨heap, _, rfl, hlen, ?_, hblock, hinv, hmax⟩,
              ?_, hperm⟩
            · simp only [AttributeStorage.isDense]
              constructor
              · intro _; omega
              · intro _; trivial
            · rw [hlen]
              exact hleaf
            · have hl := hperm.length_eq
              simpa using hl
          · intro e he
            rw [hplan] at he
            cases he
          · intro hbig
            omega
        · rw [if_neg hinfo] at hplan
          refine ⟨⟨fun ⟨s, hs⟩ => (by rw [hplan] at hs; cases hs),
            fun hr => absurd (hreg.mp hr).2.2 hinfo⟩, ?_, ?_, ?_⟩
          · intro storage hs
            rw [hplan] at hs
            cases hs
          · intro e he
            rw [hplan] at he
            have hee := Except.error.inj he
            exact ⟨fun h => by omega, Or.inl hee.symm⟩
          · intro _
            exact ⟨_, hplan⟩
      · rw [if_neg hleaf] at hplan
        refine ⟨⟨fun ⟨s, hs⟩ => (by rw [hplan] at hs; cases hs),
          fun hr => absurd (hreg.mp hr).2.1 hleaf⟩, ?_, ?_, ?_⟩
        · intro storage hs
          rw [hplan] at hs
          cases hs
        · intro e he
          rw [hplan] at he
          have hee := Except.error.inj he
          exact ⟨fun h => by omega, Or.inr (Or.inr hee.symm)⟩
        · intro _
          exact ⟨_, hplan⟩
    · have hplan := planAttributes_dense_heap_error limits enc attrs h9 hheap
      refine ⟨⟨fun ⟨s, hs⟩ => (by rw [hplan] at hs; cases hs),
        fun hr => absurd (hreg.mp hr).1 hheap⟩, ?_, ?_, ?_⟩
      · intro storage hs
        rw [hplan] at hs
        cases hs
      · intro e he
        rw [hplan] at he
        have hee := Except.error.inj he
        exact ⟨fun h => by omega, Or.inr (Or.inl hee.symm)⟩
      · intro _
        exact ⟨_, hplan⟩

/-- Witness for C6: the nine attributes `Attr1 .. Attr9` of the dense storage test are
within the regime of the example limits, so the write succeeds, is dense and reads
nine attributes back. -/
theorem storage_mode_dense_iff_more_than_eight_witness :
    nineAttributes.length = 9 ∧
    withinRegime exampleLimits exampleEncoder nineAttributes ∧
    ∃ storage, planAttributes exampleLimits exampleEncoder nineAttributes = .ok storage ∧
      storage.isDense = true ∧ storage.readBack.length = 9 ∧
      List.Perm storage.readBack
        ((nineAttributes.map (fun p => exampleEncoder p.1 p.2)).map some) := by
  have hreg : withinRegime exampleLimits exampleEncoder nineAttributes := by decide
  have hlen : nineAttributes.length = 9 := by decide
  have hall := storage_mode_dense_iff_more_than_eight exampleLimits exampleEncoder
    nineAttributes
  obtain ⟨storage, hs⟩ := hall.1.mpr hreg
  obtain ⟨hmode, -, -, hcount, hperm⟩ := hall.2.1 storage hs
  refine ⟨hlen, hreg, storage, hs, hmode.mpr (by rw [hlen]; decide), ?_, hperm⟩
  rw [hcount, hlen]

/-- C8. A root attribute with an empty name is rejected: whatever the values, when one
of the `WithRootAttribute` options carries the empty name, `CreateForWrite` returns a
writer whose `Close` returns an error, so such a writer is never closed
successfully. -/
theorem empty_attribute_name_rejected (limits : WriteLimits)
    (enc : GoString → AttrValue → List Byte)
    (attrs : List (GoString × AttrValue)) (h : ([] : GoString) ∈ attrs.map Prod.fst) :
    ∃ fw, CreateForWrite (rootAttributeOptions attrs) = .ok fw ∧
      ∃ e, fw.Close limits enc = .error e := by
  refine ⟨_, rfl, ?_⟩
  have hne : attrs ≠ [] := by
    intro hnil
    rw [hnil] at h
    simp at h
  have hcfg := applyOptions_rootAttributes attrs {}
  rw [if_neg hne] at hcfg
  have hkey : ([] : GoString) ∈
      (attrs.foldl (fun m p => AttrMap.set m p.1 p.2) []).map Prod.fst := by
    rw [foldl_set_mem_keys]
    exact Or.inr h
  obtain ⟨e, he⟩ := validateAll_error_of_empty_key _ hkey
  refine ⟨e, ?_⟩
  simp only [FileWriter.Close, hcfg]
  simp only [Option.getD_some, Option.getD_none] at he ⊢
  rw [he]
  rfl

/-- Witness for C8: the single option `WithRootAttribute("", "value")` of the error
test. -/
theorem empty_attribute_name_rejected_witness :
    ([] : GoString) ∈
        ([([], AttrValue.text (ascii ("value")))] : List (GoString × AttrValue)).map Prod.fst ∧
      ∃ fw, CreateForWrite (rootAttributeOptions [([], AttrValue.text (ascii ("value")))])
          = .ok fw ∧
        ∃ e, fw.Close exampleLimits exampleEncoder = .error e :=
  ⟨by simp, empty_attribute_name_rejected exampleLimits exampleEncoder _ (by simp)⟩

/-- C9. Applying a sequence of `WithRootAttribute(name, value)` options (at least one)
to an empty `FileWriteConfig` leaves `RootAttributes` non-nil, with exactly one entry
per distinct name, each name mapped to the value of the last option applied for that
name; names and values are stored as given, the empty name and the nil value
included. -/
theorem WithRootAttribute_last_write_wins (attrs : List (GoString × AttrValue))
    (h : attrs ≠ []) :
    ∃ m : AttrMap,
      (applyOptions (rootAttributeOptions attrs) {}).RootAttributes = some m ∧
      (m.map Prod.fst).Nodup ∧
      (∀ name, name ∈ m.map Prod.fst ↔ name ∈ attrs.map Prod.fst) ∧
      m.length = (attrs.map Prod.fst).dedup.length ∧
      (∀ name, AttrMap.get m name = lastValue attrs name) := by
  have hnd := foldl_set_nodup_keys attrs [] (by simp)
  have hmem : ∀ name,
      name ∈ (attrs.foldl (fun m p => AttrMap.set m p.1 p.2) []).map Prod.fst ↔
        name ∈ attrs.map Prod.fst := by
    intro name
    rw [foldl_set_mem_keys]
    simp
  refine ⟨attrs.foldl (fun m p => AttrMap.set m p.1 p.2) [], ?_, hnd, hmem, ?_, ?_⟩
  · rw [applyOptions_rootAttributes]
    simp [h]
  · have hperm : List.Perm
        ((attrs.foldl (fun m p => AttrMap.set m p.1 p.2) []).map Prod.fst)
        (attrs.map Prod.fst).dedup :=
      (List.perm_ext_iff_of_nodup hnd (List.nodup_dedup _)).mpr
        (fun a => by rw [hmem, List.mem_dedup])
    have hl := hperm.length_eq
    rw [List.length_map] at hl
    exact hl
  · intro name
    rw [foldl_set_get]
    cases lastValue attrs name with
    | some v => rfl
    | none => rfl

/-- Witness for C9: the three options of the overwrite and edge-case tests, the key
"k" written twice, then the empty name with the nil value. -/
theorem WithRootAttribute_last_write_wins_witness :
    ([(ascii ("k"), AttrValue.text (ascii ("value1"))),
      (ascii ("k"), AttrValue.text (ascii ("value2"))),
      ([], AttrValue.nil)] : List (GoString × AttrValue)) ≠ [] ∧
    ∃ m : AttrMap,
      (applyOptions (rootAttributeOptions
        [(ascii ("k"), AttrValue.text (ascii ("value1"))),
         (ascii ("k"), AttrValue.text (ascii ("value2"))),
         ([], AttrValue.nil)]) {}).RootAttributes = some m ∧
      (m.map Prod.fst).Nodup ∧
      (∀ name, name ∈ m.map Prod.fst ↔
        name ∈ ([(ascii ("k"), AttrValue.text (ascii ("value1"))),
          (ascii ("k"), AttrValue.text (ascii ("value2"))),
          ([], AttrValue.nil)] : List (GoString × AttrValue)).map Prod.fst) ∧
      m.length = (([(ascii ("k"), AttrValue.text (ascii ("value1"))),
          (ascii ("k"), AttrValue.text (ascii ("value2"))),
          ([], AttrValue.nil)] : List (GoString × AttrValue)).map Prod.fst).dedup.length ∧
      (∀ name, AttrMap.get m name =
        lastValue [(ascii ("k"), AttrValue.text (ascii ("value1"))),
          (ascii ("k"), AttrValue.text (ascii ("value2"))),
          ([], AttrValue.nil)] name) :=
  ⟨by simp, WithRootAttribute_last_write_wins _ (by simp)⟩

/-- C10. For every byte sequence, `JenkinsChecksum(data)` is `JenkinsLookup3(data, 0)`. -/
theorem JenkinsChecksum_eq_lookup3_seed_zero (data : List Byte) :
    JenkinsChecksum data = JenkinsLookup3 data 0 :=
  rfl

/-! ## Claims on determinism, collisions and the structure of the block walk -/

/-- C11. `JenkinsLookup3` is deterministic: a call on a slice of a backing array returns
a hash that is a function of the bytes of the slice and of the seed alone, and leaves
the memory as it found it; so two calls on slices with equal bytes and equal seeds,
in the same or in different memories, return the same value, and a second call after
the first sees the same bytes.  In particular `JenkinsChecksum` on
"HDF5 test data for checksum verification" gives 3044938182 every time. -/
theorem JenkinsLookup3_deterministic (mem : List Byte) (data : Slice) (initval : Nat)
    (h : data.Valid mem) :
    (∃ v, JenkinsLookup3 (data.bytes mem) initval = .ok v ∧
      InMemory.JenkinsLookup3 mem data initval = .ok (v, mem)) ∧
    (∀ (mem2 : List Byte) (data2 : Slice) (initval2 : Nat), data2.Valid mem2 →
      data2.bytes mem2 = data.bytes mem → initval2 = initval →
      ∃ v, InMemory.JenkinsLookup3 mem data initval = .ok (v, mem) ∧
        InMemory.JenkinsLookup3 mem2 data2 initval2 = .ok (v, mem2)) ∧
    (∃ v, InMemory.JenkinsChecksum (ascii ("HDF5 test data for checksum verification"))
        ⟨0, 40⟩ = .ok (v, ascii ("HDF5 test data for checksum verification")) ∧
      v = 3044938182 ∧
      JenkinsChecksum (ascii ("HDF5 test data for checksum verification")) = .ok v) := by
  refine ⟨InMemory.call_on_slice_eq mem data initval h, ?_, ?_⟩
  · intro mem2 data2 initval2 h2 hbytes hinit
    obtain ⟨v, hv, hrun⟩ := InMemory.call_on_slice_eq mem data initval h
    obtain ⟨v2, hv2, hrun2⟩ := InMemory.call_on_slice_eq mem2 data2 initval2 h2
    rw [hbytes, hinit, hv] at hv2
    have hvv : v = v2 := Except.ok.inj hv2
    subst hvv
    exact ⟨v, hrun, hrun2⟩
  · obtain ⟨v, hv, hrun⟩ := InMemory.call_on_slice_eq
      (ascii ("HDF5 test data for checksum verification")) ⟨0, 40⟩ 0 (by decide)
    have hbytes : Slice.bytes (ascii ("HDF5 test data for checksum verification")) ⟨0, 40⟩ =
        ascii ("HDF5 test data for checksum verification") := by decide
    rw [hbytes] at hv
    have hval : JenkinsLookup3 (ascii ("HDF5 test data for checksum verification")) 0 =
        .ok 3044938182 := rfl
    rw [hval] at hv
    have hvv : 3044938182 = v := Except.ok.inj hv
    subst hvv
    exact ⟨_, hrun, rfl, hval⟩

/-- Witness for C11: the four bytes of "test" as the slice `mem[2:6]` of an eight-byte
memory, seed 1. -/
theorem JenkinsLookup3_deterministic_witness :
    Slice.Valid (ascii ("xxtestyy")) ⟨2, 4⟩ ∧
    Slice.bytes (ascii ("xxtestyy")) ⟨2, 4⟩ = ascii ("test") ∧
    ((∃ v, JenkinsLookup3 (Slice.bytes (ascii ("xxtestyy")) ⟨2, 4⟩) 1 = .ok v ∧
      InMemory.JenkinsLookup3 (ascii ("xxtestyy")) ⟨2, 4⟩ 1 = .ok (v, ascii ("xxtestyy"))) ∧
    (∀ (mem2 : List Byte) (data2 : Slice) (initval2 : Nat), data2.Valid mem2 →
      data2.bytes mem2 = Slice.bytes (ascii ("xxtestyy")) ⟨2, 4⟩ → initval2 = 1 →
      ∃ v, InMemory.JenkinsLookup3 (ascii ("xxtestyy")) ⟨2, 4⟩ 1 = .ok (v, ascii ("xxtestyy")) ∧
        InMemory.JenkinsLookup3 mem2 data2 initval2 = .ok (v, mem2)) ∧
    (∃ v, InMemory.JenkinsChecksum (ascii ("HDF5 test data for checksum verification"))
        ⟨0, 40⟩ = .ok (v, ascii ("HDF5 test data for checksum verification")) ∧
      v = 3044938182 ∧
      JenkinsChecksum (ascii ("HDF5 test data for checksum verification")) = .ok v)) :=
  ⟨by decide, by decide, JenkinsLookup3_deterministic (ascii ("xxtestyy")) ⟨2, 4⟩ 1 (by decide)⟩

/-- C12. Different inputs produce different hashes for the inputs of the test:
`JenkinsChecksum` of ASCII "hello" is 885767278 and of ASCII "world" is 1822872761, so
the two are not equal. -/
theorem JenkinsChecksum_hello_ne_world :
    ascii ("hello") = [0x68, 0x65, 0x6c, 0x6c, 0x6f] ∧
      ascii ("world") = [0x77, 0x6f, 0x72, 0x6c, 0x64] ∧
      JenkinsChecksum (ascii ("hello")) = .ok 885767278 ∧
      JenkinsChecksum (ascii ("world")) = .ok 1822872761 ∧
      JenkinsChecksum (ascii ("hello")) ≠ JenkinsChecksum (ascii ("world")) := by
  have h1 : JenkinsChecksum (ascii ("hello")) = .ok 885767278 := rfl
  have h2 : JenkinsChecksum (ascii ("world")) = .ok 1822872761 := rfl
  refine ⟨by decide, by decide, h1, h2, ?_⟩
  rw [h1, h2]
  intro h
  exact absurd (Except.ok.inj h) (by decide)

/-- C13. Different seeds produce different hashes for the input of the test:
`JenkinsLookup3` of ASCII "test" is 3188463954 with seed 0 and 137244528 with seed 1, so
the two are not equal. -/
theorem JenkinsLookup3_seed_zero_ne_seed_one :
    ascii ("test") = [0x74, 0x65, 0x73, 0x74] ∧
      JenkinsLookup3 (ascii ("test")) 0 = .ok 3188463954 ∧
      JenkinsLookup3 (ascii ("test")) 1 = .ok 137244528 ∧
      JenkinsLookup3 (ascii ("test")) 0 ≠ JenkinsLookup3 (ascii ("test")) 1 := by
  have h1 : JenkinsLookup3 (ascii ("test")) 0 = .ok 3188463954 := rfl
  have h2 : JenkinsLookup3 (ascii ("test")) 1 = .ok 137244528 := rfl
  refine ⟨by decide, h1, h2, ?_⟩
  rw [h1, h2]
  intro h
  exact absurd (Except.ok.inj h) (by decide)

/-- C14, counterexample. On the zero-length key with seed 0 `JenkinsLookup3` returns 0,
while the reference value for a zero-length key, the unmixed initial state, is
`0xdeadbeef`. -/
theorem JenkinsLookup3_empty_differs_from_reference :
    JenkinsLookup3 [] 0 = .ok 0 ∧
      Reference.hashlittle [] 0 = 0xdeadbeef ∧
      (0xdeadbeef + 0) % 2 ^ 32 = 0xdeadbeef ∧
      ¬ (JenkinsLookup3 [] 0 = .ok (Reference.hashlittle [] 0)) ∧
      ¬ (JenkinsLookup3 [] 0 = .ok ((0xdeadbeef + 0) % 2 ^ 32)) := by
  refine ⟨rfl, rfl, rfl, ?_, ?_⟩
  · intro h
    exact absurd (Except.ok.inj h) (by decide)
  · intro h
    exact absurd (Except.ok.inj h) (by decide)

/-- C14, amended. `JenkinsLookup3` is a port of the reference `hashlittle` on the
non-empty keys; on the zero-length key it departs from the reference: for every seed it
returns 0, whereas the reference value for a zero-length key is the unmixed initial
state `0xdeadbeef + initval` modulo `2 ^ 32`; the two coincide exactly for the seeds
congruent to `0x21524111` modulo `2 ^ 32`. -/
theorem JenkinsLookup3_empty_versus_reference (initval : Nat) :
    (∀ data : List Byte, data ≠ [] →
      JenkinsLookup3 data initval = .ok (Reference.hashlittle data initval)) ∧
      JenkinsLookup3 [] initval = .ok 0 ∧
      Reference.hashlittle [] initval = (0xdeadbeef + initval) % 2 ^ 32 ∧
      (JenkinsLookup3 [] initval = .ok (Reference.hashlittle [] initval) ↔
        initval % 2 ^ 32 = 0x21524111) := by
  have href : Reference.hashlittle [] initval = (0xdeadbeef + initval) % 2 ^ 32 := rfl
  refine ⟨fun data h => JenkinsLookup3_eq_hashlittle data initval h, rfl, href, ?_⟩
  rw [JenkinsLookup3_nil, href]
  constructor
  · intro h
    have h0 := Except.ok.inj h
    omega
  · intro h
    have h0 : (0xdeadbeef + initval) % 2 ^ 32 = 0 := by omega
    rw [h0]

/-- C15. Single-block closed form: for every byte sequence of length `n` with
`1 ≤ n ≤ 12` and every seed, `JenkinsLookup3` runs no mix round and returns the `c` of
the final mix applied to `(s + w0, s + w1, s + w2)` modulo `2 ^ 32`, with
`s = 0xdeadbeef + n + initval` and `w0`, `w1`, `w2` the little-endian words of bytes
0..3, 4..7, 8..11 of the input, absent bytes taken as zero. -/
theorem single_block_closed_form (data : List Byte) (initval : Nat)
    (h1 : 1 ≤ data.length) (h12 : data.length ≤ 12) :
    JenkinsLookup3Rounds data initval =
        .ok (0, finalMix
          (add32 (initialState data.length initval) (Reference.wordAt data 0))
          (add32 (initialState data.length initval) (Reference.wordAt data 4))
          (add32 (initialState data.length initval) (Reference.wordAt data 8))) ∧
      JenkinsLookup3 data initval =
        .ok (finalMix
          (add32 (initialState data.length initval) (Reference.wordAt data 0))
          (add32 (initialState data.length initval) (Reference.wordAt data 4))
          (add32 (initialState data.length initval) (Reference.wordAt data 8))) := by
  have h : data ≠ [] := by
    intro e
    rw [e] at h1
    simp at h1
  have hq : (data.length - 1) / 12 = 0 := by omega
  constructor
  · rw [JenkinsLookup3Rounds_eq data initval h, hq, hashlittle_short data initval h h12]
  · rw [JenkinsLookup3_eq_hashlittle data initval h, hashlittle_short data initval h h12]

/-- Witness for C15: the five bytes of "hello" with seed 0. -/
theorem single_block_closed_form_witness :
    1 ≤ (ascii ("hello")).length ∧ (ascii ("hello")).length ≤ 12 ∧
      (JenkinsLookup3Rounds (ascii ("hello")) 0 =
        .ok (0, finalMix
          (add32 (initialState (ascii ("hello")).length 0) (Reference.wordAt (ascii ("hello")) 0))
          (add32 (initialState (ascii ("hello")).length 0) (Reference.wordAt (ascii ("hello")) 4))
          (add32 (initialState (ascii ("hello")).length 0) (Reference.wordAt (ascii ("hello")) 8))) ∧
      JenkinsLookup3 (ascii ("hello")) 0 =
        .ok (finalMix
          (add32 (initialState (ascii ("hello")).length 0) (Reference.wordAt (ascii ("hello")) 0))
          (add32 (initialState (ascii ("hello")).length 0) (Reference.wordAt (ascii ("hello")) 4))
          (add32 (initialState (ascii ("hello")).length 0) (Reference.wordAt (ascii ("hello")) 8)))) :=
  ⟨by decide, by decide, single_block_closed_form (ascii ("hello")) 0 (by decide) (by decide)⟩

/-- C16. For every non-empty input, when the block loop exits between 1 and 12 bytes
are left unprocessed, exactly `(n - 1) mod 12 + 1` of them and so 12 when the input
length `n` is a multiple of 12; they are the last bytes of the input.  Hence the tail
switch does not take its `case 0: return c` branch: the final mix is applied, to the
state with the remaining bytes added as zero-padded little-endian words. -/
theorem loop_exit_leaves_one_to_twelve (data : List Byte) (initval : Nat) (h : data ≠ []) :
    ∃ k a b c,
      blockLoop data.length data
          (add32 (add32 0xdeadbeef (data.length % 2 ^ 32)) initval)
          (add32 (add32 0xdeadbeef (data.length % 2 ^ 32)) initval)
          (add32 (add32 0xdeadbeef (data.length % 2 ^ 32)) initval) = .ok (k, a, b, c) ∧
      1 ≤ k.length ∧ k.length ≤ 12 ∧
      (data.length % 12 = 0 → k.length = 12) ∧
      k.length = (data.length - 1) % 12 + 1 ∧
      k = data.drop (data.length - k.length) ∧
      lastBlock k a b c =
        .ok (finalMix (add32 a (Reference.wordAt k 0)) (add32 b (Reference.wordAt k 4))
          (add32 c (Reference.wordAt k 8))) ∧
      JenkinsLookup3 data initval = lastBlock k a b c := by
  have h0 : ¬ data.length = 0 := fun e => h (List.length_eq_zero.mp e)
  obtain ⟨k1, a1, b1, c1, -, hloop, hdrop, hlen, ha1, hb1, hc1, -⟩ :=
    loop_exit data.length 0 data _ _ _ h (Nat.le_refl _)
      (add32_lt (add32 0xdeadbeef (data.length % 2 ^ 32)) initval)
      (add32_lt (add32 0xdeadbeef (data.length % 2 ^ 32)) initval)
      (add32_lt (add32 0xdeadbeef (data.length % 2 ^ 32)) initval)
  have hk1 : k1 ≠ [] := by
    intro e
    rw [e] at hlen
    simp at hlen
  refine ⟨k1, a1, b1, c1, hloop, by omega, by omega, by omega, hlen, ?_, ?_, ?_⟩
  · have hidx : data.length - k1.length = 12 * ((data.length - 1) / 12) := by omega
    rw [hidx]
    exact hdrop
  · rw [lastBlock_eq k1 a1 b1 c1 hk1 (by omega) ha1 hb1 hc1,
      blocks_short k1 a1 b1 c1 hk1 (by omega)]
  · simp only [JenkinsLookup3]
    rw [if_neg h0, hloop, ok_bind]

/-- Witness for C16: the twenty-four bytes 0..23 with seed 0. -/
theorem loop_exit_leaves_one_to_twelve_witness :
    ((List.range 24).map (fun i => (Fin.ofNat i : Byte))) ≠ [] ∧
    ∃ k a b c,
      blockLoop ((List.range 24).map (fun i => (Fin.ofNat i : Byte))).length
          ((List.range 24).map (fun i => (Fin.ofNat i : Byte)))
          (add32 (add32 0xdeadbeef
            (((List.range 24).map (fun i => (Fin.ofNat i : Byte))).length % 2 ^ 32)) 0)
          (add32 (add32 0xdeadbeef
            (((List.range 24).map (fun i => (Fin.ofNat i : Byte))).length % 2 ^ 32)) 0)
          (add32 (add32 0xdeadbeef
            (((List.range 24).map (fun i => (Fin.ofNat i : Byte))).length % 2 ^ 32)) 0)
          = .ok (k, a, b, c) ∧
      1 ≤ k.length ∧ k.length ≤ 12 ∧
      (((List.range 24).map (fun i => (Fin.ofNat i : Byte))).length % 12 = 0 → k.length = 12) ∧
      k.length = (((List.range 24).map (fun i => (Fin.ofNat i : Byte))).length - 1) % 12 + 1 ∧
      k = ((List.range 24).map (fun i => (Fin.ofNat i : Byte))).drop
        (((List.range 24).map (fun i => (Fin.ofNat i : Byte))).length - k.length) ∧
      lastBlock k a b c =
        .ok (finalMix (add32 a (Reference.wordAt k 0)) (add32 b (Reference.wordAt k 4))
          (add32 c (Reference.wordAt k 8))) ∧
      JenkinsLookup3 ((List.range 24).map (fun i => (Fin.ofNat i : Byte))) 0 = lastBlock k a b c :=
  ⟨by decide, loop_exit_leaves_one_to_twelve _ 0 (by decide)⟩

/-- C17. Trailing zero against the seed: for every byte sequence `d` whose length is not
a multiple of 12 and every seed `s`, `JenkinsLookup3` of `d` followed by one zero byte
with seed `s` equals `JenkinsLookup3` of `d` with seed `s + 1` modulo `2 ^ 32`. -/
theorem trailing_zero_seed_collision (d : List Byte) (s : Nat) (h : d.length % 12 ≠ 0) :
    JenkinsLookup3 (d ++ [0]) s = JenkinsLookup3 d ((s + 1) % 2 ^ 32) := by
  have hd : d ≠ [] := by
    intro e
    rw [e] at h
    exact h rfl
  rw [JenkinsLookup3_eq_hashlittle (d ++ [0]) s (by simp),
    JenkinsLookup3_eq_hashlittle d ((s + 1) % 2 ^ 32) hd]
  simp only [Reference.hashlittle, List.length_append, List.length_cons, List.length_nil]
  have hs : (0xdeadbeef + (d.length + (0 + 1)) + s) % 2 ^ 32 =
      (0xdeadbeef + d.length + (s + 1) % 2 ^ 32) % 2 ^ 32 := by omega
  rw [hs, blocks_append_zero d.length d _ _ _ (Nat.le_refl _) h]

/-- Witness for C17: the five bytes of "hello" with seed 0. -/
theorem trailing_zero_seed_collision_witness :
    (ascii ("hello")).length % 12 ≠ 0 ∧
      JenkinsLookup3 (ascii ("hello") ++ [0]) 0 = JenkinsLookup3 (ascii ("hello")) ((0 + 1) % 2 ^ 32) :=
  ⟨by decide, trailing_zero_seed_collision (ascii ("hello")) 0 (by decide)⟩

/-- C18. The block loop terminates for every input: each pass through the body shortens
the remaining slice by exactly 12 bytes, the loop stops after `(len - 1) / 12` passes
whatever bound above that number is given, and for an input of length `n ≥ 1`
`JenkinsLookup3` performs exactly `(n - 1) / 12` mix rounds and returns; the counter
does not change the value returned. -/
theorem block_loop_round_count (data : List Byte) (initval : Nat) :
    (∃ v, JenkinsLookup3 data initval = .ok v) ∧
    JenkinsLookup3 data initval = (JenkinsLookup3Rounds data initval).map Prod.snd ∧
    (∀ (k : List Byte) (a b c : Nat), k.length > 12 →
      ∃ a1 b1 c1, blockStep k a b c = .ok (k.drop 12, a1, b1, c1) ∧
        (k.drop 12).length + 12 = k.length) ∧
    (∀ (fuel rounds : Nat) (k : List Byte) (a b c : Nat), (k.length - 1) / 12 < fuel →
      ∃ a1 b1 c1, blockLoopRounds fuel rounds k a b c =
        .ok (rounds + (k.length - 1) / 12, k.drop (12 * ((k.length - 1) / 12)), a1, b1, c1)) ∧
    (1 ≤ data.length →
      ∃ v, JenkinsLookup3Rounds data initval = .ok ((data.length - 1) / 12, v) ∧
        JenkinsLookup3 data initval = .ok v) := by
  refine ⟨?_, JenkinsLookup3_forget_rounds data initval, blockStep_shortens,
    blockLoopRounds_spec, ?_⟩
  · obtain ⟨v, hv, -⟩ := JenkinsLookup3_total data initval
    exact ⟨v, hv⟩
  · intro h1
    have h : data ≠ [] := by
      intro e
      rw [e] at h1
      simp at h1
    exact ⟨_, JenkinsLookup3Rounds_eq data initval h, JenkinsLookup3_eq_hashlittle data initval h⟩

/-- C19. The mix round is a bijection on the triples of 32-bit words: it maps such
triples to such triples, `unmixRound` undoes it and is undone by it, so distinct states
before a mix round give distinct states after it.  The round is six lines
`x -= y; x ^= (y << s) | (y >> t); y += z` whose shift pairs 4/28, 6/26, 8/24, 16/16,
19/13, 4/28 are rotations of the 32-bit word: bit `i` of the result is bit `i + t`
modulo 32 of the operand. -/
theorem mixRound_is_bijection :
    Set.BijOn (fun p : Nat × Nat × Nat => mixRound p.1 p.2.1 p.2.2) Word32x3 Word32x3 ∧
    (∀ p ∈ Word32x3,
      unmixRound (mixRound p.1 p.2.1 p.2.2).1 (mixRound p.1 p.2.1 p.2.2).2.1
        (mixRound p.1 p.2.1 p.2.2).2.2 = p) ∧
    (∀ p ∈ Word32x3,
      unmixRound p.1 p.2.1 p.2.2 ∈ Word32x3 ∧
      mixRound (unmixRound p.1 p.2.1 p.2.2).1 (unmixRound p.1 p.2.1 p.2.2).2.1
        (unmixRound p.1 p.2.1 p.2.2).2.2 = p) ∧
    (∀ a b c : Nat,
      mixRound a b c =
        ((mixLine 4 28 (mixLine 19 13 (mixLine 16 16 (mixLine 8 24 (mixLine 6 26
          (mixLine 4 28 (a, c, b))))))).1,
         (mixLine 4 28 (mixLine 19 13 (mixLine 16 16 (mixLine 8 24 (mixLine 6 26
          (mixLine 4 28 (a, c, b))))))).2.2,
         (mixLine 4 28 (mixLine 19 13 (mixLine 16 16 (mixLine 8 24 (mixLine 6 26
          (mixLine 4 28 (a, c, b))))))).2.1)) ∧
    (∀ x i : Nat, x < 2 ^ 32 → i < 32 →
      (shl32 x 4 ||| shr32 x 28).testBit i = x.testBit ((i + 28) % 32) ∧
      (shl32 x 6 ||| shr32 x 26).testBit i = x.testBit ((i + 26) % 32) ∧
      (shl32 x 8 ||| shr32 x 24).testBit i = x.testBit ((i + 24) % 32) ∧
      (shl32 x 16 ||| shr32 x 16).testBit i = x.testBit ((i + 16) % 32) ∧
      (shl32 x 19 ||| shr32 x 13).testBit i = x.testBit ((i + 13) % 32)) := by
  refine ⟨Set.BijOn.mk ?_ ?_ ?_, unmixRound_mixRound, ?_, mixRound_eq_lines, ?_⟩
  · intro p hp
    exact mixRound_mem p hp
  · intro p hp q hq hpq
    have h1 := unmixRound_mixRound p hp
    have h2 := unmixRound_mixRound q hq
    simp only at hpq
    rw [hpq] at h1
    exact h1.symm.trans h2
  · intro q hq
    exact ⟨unmixRound q.1 q.2.1 q.2.2, unmixRound_mem q hq, mixRound_unmixRound q hq⟩
  · intro p hp
    exact ⟨unmixRound_mem p hp, mixRound_unmixRound p hp⟩
  · intro x i hx hi
    exact ⟨rotation_testBit x 4 i hx (by decide) hi, rotation_testBit x 6 i hx (by decide) hi,
      rotation_testBit x 8 i hx (by decide) hi, rotation_testBit x 16 i hx (by decide) hi,
      rotation_testBit x 19 i hx (by decide) hi⟩

end HDF5
